import Mathlib

set_option maxRecDepth 100000

/-!
# Verification of the Ecowatt_Polaris firmware core

Shallow embedding of the data-transform modules of the repository
(`src/main/modbus.cpp`, `src/main/buffer.cpp` + `buffer.hpp`,
`src/main/codec.cpp`, `src/main/control.cpp` + the `config_update`
handling of `src/main/main.cpp`, the security envelope and the FOTA
engine), together with proofs of the specified properties.

Conventions used throughout:
* machine integers (`uint8_t`, `uint16_t`, `uint32_t`, `size_t`) are
  modelled as `Nat`, with an explicit `% 2^w` exactly where the C++
  performs a narrowing cast or where overflow is possible;
* byte buffers (`std::string` used as a blob, `std::vector<uint8_t>`)
  are `List Nat` (each element `< 256` whenever produced by the code);
* text strings are `String` or `List Char`;
* fallible functions return `Option`/a `Bool` flag, mirroring the
  source's `return false`/`std::nullopt` sites one for one.
-/

namespace modbus

/-- One bit step of the Modbus RTU CRC-16 (reflected polynomial `0xA001`):
the body of the inner `for (j)` loop of `crc16` in `modbus.cpp`. -/
def crcBit (c : Nat) : Nat :=
  if c % 2 = 1 then (c / 2) ^^^ 0xA001 else c / 2

/-- `modbus::crc16`: CRC-16 with initial value `0xFFFF`; for each byte the
CRC is XORed with the byte and then shifted through eight bit steps. -/
def crc16 (data : List Nat) : Nat :=
  data.foldl (fun crc b => (crcBit)^[8] (crc ^^^ (b % 256))) 0xFFFF

/-- The uppercase hex digit table `"0123456789ABCDEF"` of `bytes_to_hex`. -/
def hexDigitU (n : Nat) : Char :=
  "0123456789ABCDEF".data.getD n '0'

/-- `modbus::bytes_to_hex`: two uppercase hex characters per byte,
high nibble first. -/
def bytes_to_hex (data : List Nat) : String :=
  ⟨data.flatMap (fun b => [hexDigitU ((b / 16) % 16), hexDigitU (b % 16)])⟩

/-- `modbus::make_read_holding`: builds
`[slave][0x03][addr_hi][addr_lo][count_hi][count_lo][crc_lo][crc_hi]`
and returns it as ASCII hex.  The `% 256` on the parameters reflects the
`uint8_t`/`uint16_t` parameter types. -/
def make_read_holding (slave start_addr count : Nat) : String :=
  let buf := [slave % 256, 0x03,
              (start_addr / 256) % 256, start_addr % 256,
              (count / 256) % 256, count % 256]
  let c := crc16 buf
  bytes_to_hex (buf ++ [c % 256, (c / 256) % 256])

/-- `modbus::make_write_single`: builds
`[slave][0x06][reg_hi][reg_lo][val_hi][val_lo][crc_lo][crc_hi]`
and returns it as ASCII hex. -/
def make_write_single (slave reg_addr value : Nat) : String :=
  let buf := [slave % 256, 0x06,
              (reg_addr / 256) % 256, reg_addr % 256,
              (value / 256) % 256, value % 256]
  let c := crc16 buf
  bytes_to_hex (buf ++ [c % 256, (c / 256) % 256])

end modbus

namespace acquisition

/-- `acquisition::Sample` (`acquisition.hpp`): ten raw 16-bit unsigned
register words.  Each field is a `uint16_t`, modelled as a `Nat`; the
well-formedness predicate `SampleWF` below records the `< 2^16` bound the
C++ type carries. -/
structure Sample where
  vac1 : Nat
  iac1 : Nat
  fac1 : Nat
  vpv1 : Nat
  vpv2 : Nat
  ipv1 : Nat
  ipv2 : Nat
  temp : Nat
  export_percent : Nat
  pac : Nat
  deriving Repr, DecidableEq, Inhabited

/-- All ten fields fit in a `uint16_t`. -/
def SampleWF (s : Sample) : Prop :=
  s.vac1 < 65536 ∧ s.iac1 < 65536 ∧ s.fac1 < 65536 ∧ s.vpv1 < 65536 ∧
  s.vpv2 < 65536 ∧ s.ipv1 < 65536 ∧ s.ipv2 < 65536 ∧ s.temp < 65536 ∧
  s.export_percent < 65536 ∧ s.pac < 65536

instance (s : Sample) : Decidable (SampleWF s) := by
  unfold SampleWF; infer_instance

end acquisition

namespace buffer

/-- `buffer::Record` (`buffer.hpp`): a timestamped sample. -/
structure Record where
  epoch_ms : Nat
  s : acquisition.Sample
  deriving Repr, DecidableEq, Inhabited

/-- The state of `buffer::Ring` (`buffer.hpp`): capacity, storage, read and
write indices, live count, and the dropped counter.  The pre-sized
`std::vector<Record> recs_(capacity)` is modelled as a total function
`Nat → Record`; the code only ever indexes it below `cap`. -/
structure Ring where
  cap : Nat
  recs : Nat → Record
  r : Nat
  w : Nat
  count : Nat
  dropped : Nat

/-- The `Ring(capacity)` constructor: default-initialized storage, all
indices and counters zero. -/
def Ring.mk0 (capacity : Nat) : Ring :=
  ⟨capacity, fun _ => default, 0, 0, 0, 0⟩

/-- `Ring::push`.  The ring-index logic (`recs_[w_] = r; w_ = (w_+1) % cap_;
if (count_ < cap_) ++count_; else r_ = (r_+1) % cap_;`) is from
`buffer.cpp`.  Modelled from the spec: the `bool` result and the `dropped`
counter — `buffer.hpp` declares `bool push(...)` ("returns true if the push
overwrote/caused a drop") and `get_and_clear_dropped`, but their
implementation is not under `src/`; per the spec's overwrite policy the
full-ring branch increments `dropped` and is exactly the case in which
`push` returns `true`. -/
def Ring.push (s : Ring) (rec : Record) : Bool × Ring :=
  let recs' := fun i => if i = s.w then rec else s.recs i
  let w' := (s.w + 1) % s.cap
  if s.count < s.cap then
    (false, { s with recs := recs', w := w', count := s.count + 1 })
  else
    (true, { s with recs := recs', w := w', r := (s.r + 1) % s.cap,
                    dropped := s.dropped + 1 })

/-- `Ring::snapshot_and_clear` (`buffer.cpp`): copy the `count_` live
records starting at `r_` in order, then reset `r_ = w_ = count_ = 0`. -/
def Ring.snapshot_and_clear (s : Ring) : List Record × Ring :=
  ((List.range s.count).map (fun i => s.recs ((s.r + i) % s.cap)),
   { s with r := 0, w := 0, count := 0 })

/-- `Ring::get_and_clear_dropped`.  Modelled from the spec: declared in
`buffer.hpp` ("return number of dropped/overwritten records since last
snapshot (and clear it)") with no implementation under `src/`. -/
def Ring.get_and_clear_dropped (s : Ring) : Nat × Ring :=
  (s.dropped, { s with dropped := 0 })

/-- The sequence of live records, oldest first (what a snapshot returns). -/
def Ring.live (s : Ring) : List Record :=
  (List.range s.count).map (fun i => s.recs ((s.r + i) % s.cap))

/-- Push a whole list of records in order, collecting the overflow flags. -/
def pushAll (s : Ring) (l : List Record) : List Bool × Ring :=
  match l with
  | [] => ([], s)
  | rec :: rest =>
    let p := s.push rec
    let q := pushAll p.2 rest
    (p.1 :: q.1, q.2)

/-- The structural invariant of a ring: positive capacity, count within
capacity, write index one past the newest live record, read index in
range. -/
def Inv (s : Ring) : Prop :=
  0 < s.cap ∧ s.count ≤ s.cap ∧ s.w = (s.r + s.count) % s.cap ∧ s.r < s.cap

end buffer

namespace control

/-- ASCII lowercase fold of one character (`std::tolower`, C locale). -/
def lowerChar (c : Char) : Char :=
  if 'A' ≤ c ∧ c ≤ 'Z' then Char.ofNat (c.toNat + 32) else c

/-- `control::lower` (`control.cpp`): lowercase every character. -/
def lower (s : String) : String :=
  ⟨s.data.map lowerChar⟩

/-- The name→field-id chain of `control::map_field_names` (`control.cpp`);
`none` is the `else return false` arm.  Field ids are the `FieldId` enum
values `VAC1=0 .. PAC=9` of `control.hpp`. -/
def mapFieldName (n0 : String) : Option Nat :=
  let n := lower n0
  if n = "voltage" ∨ n = "vac1" then some 0
  else if n = "current" ∨ n = "iac1" then some 1
  else if n = "frequency" ∨ n = "fac1" then some 2
  else if n = "vpv1" then some 3
  else if n = "vpv2" then some 4
  else if n = "ipv1" then some 5
  else if n = "ipv2" then some 6
  else if n = "temperature" ∨ n = "temp" then some 7
  else if n = "export_percent" ∨ n = "export" then some 8
  else if n = "pac" ∨ n = "power" then some 9
  else none

/-- The loop of `map_field_names`: map every name, failing on the first
unknown one (the early `return false`). -/
def mapAllNames : List String → Option (List Nat)
  | [] => some []
  | n :: rest =>
    match mapFieldName n with
    | none => none
    | some v => (mapAllNames rest).map (fun t => v :: t)

/-- Helper for `std::unique`: drop elements equal to the previous kept
element. -/
def dedupFrom (prev : Nat) : List Nat → List Nat
  | [] => []
  | b :: rest => if prev = b then dedupFrom prev rest else b :: dedupFrom b rest

/-- `std::unique` + `erase` on a sorted vector: drop adjacent duplicates,
keeping the first element of each run. -/
def dedupAdj : List Nat → List Nat
  | [] => []
  | a :: rest => a :: dedupFrom a rest

/-- `control::map_field_names`: map all names (fail on any unknown), fail on
an empty result, then `std::sort` + `std::unique`. -/
def map_field_names (names : List String) : Option (List Nat) :=
  match mapAllNames names with
  | none => none
  | some vals =>
    if vals = [] then none
    else some (dedupAdj (List.insertionSort (· ≤ ·) vals))

/-- Which of the `accepted` / `rejected` / `unchanged` lists of the
`config_ack` the `registers` key lands in (`main.cpp`, `task_uplink`). -/
inductive RegsOutcome
  | acceptedKey
  | rejectedKey
  | unchangedKey
  deriving Repr, DecidableEq

/-- The `registers` decision block of the `config_update` handler in
`main.cpp`: empty (omitted) list → unchanged; invalid (unknown name) →
rejected, keeping the current field set; sorted-id comparison with the
current set → unchanged; otherwise accepted with the new mapped set.  The
second component is `next.fields`, the value promoted to `current` at the
next window boundary (`g_cfg_cur = g_cfg_next`). -/
def regsDecision (regs_in : List String) (cur : List Nat) :
    RegsOutcome × List Nat :=
  if regs_in = [] then (.unchangedKey, cur)
  else
    match map_field_names regs_in with
    | none => (.rejectedKey, cur)
    | some fids_new =>
      if List.insertionSort (· ≤ ·) cur = List.insertionSort (· ≤ ·) fids_new
      then (.unchangedKey, cur)
      else (.acceptedKey, fids_new)

end control

namespace codec

/-- `put_u16` (`codec.cpp`): a 16-bit value as two little-endian bytes
(`v & 0xFF`, then `uint8_t(v >> 8)`). -/
def put_u16 (v : Nat) : List Nat :=
  [v % 256, (v / 256) % 256]

/-- `put_u32` (`codec.cpp`): a 32-bit value as four little-endian bytes. -/
def put_u32 (v : Nat) : List Nat :=
  [v % 256, (v / 256) % 256, (v / 65536) % 256, (v / 16777216) % 256]

/-- `get_u32` (`codec.cpp`) reading the four bytes at the start of `l`
(elements of a blob are bytes, i.e. `< 256`). -/
def get_u32v (l : List Nat) : Nat :=
  l.getD 0 0 + 256 * l.getD 1 0 + 65536 * l.getD 2 0 + 16777216 * l.getD 3 0

/-- One bit step of CRC-32 (reflected polynomial `0xEDB88320`): the body of
the inner `for (j)` loop building the table in `crc32_ieee`. -/
def crc32Step (c : Nat) : Nat :=
  if c % 2 = 1 then 0xEDB88320 ^^^ (c / 2) else c / 2

/-- `table[i]` of `crc32_ieee`: eight bit steps applied to the byte `i`. -/
def crc32Table (i : Nat) : Nat :=
  (crc32Step)^[8] (i % 256)

/-- `codec::crc32_ieee`: table-driven CRC-32 with init/final `0xFFFFFFFF`. -/
def crc32_ieee (data : List Nat) : Nat :=
  (data.foldl (fun crc b => crc32Table ((crc ^^^ b) % 256) ^^^ (crc / 256))
    0xFFFFFFFF) ^^^ 0xFFFFFFFF

/-- `codec::field_view`: the ten sample words in declared order. -/
def field_view (s : acquisition.Sample) : List Nat :=
  [s.vac1, s.iac1, s.fac1, s.vpv1, s.vpv2, s.ipv1, s.ipv2, s.temp,
   s.export_percent, s.pac]

/-- The fixed field-name list the encoder stores into `order`. -/
def field_order : List String :=
  ["vac1", "iac1", "fac1", "vpv1", "vpv2", "ipv1", "ipv2", "temp",
   "export_percent", "pac"]

/-- The per-field inner loop of `encode_delta_rle_v1` (`codec.cpp`): emit
the opcode stream for the values after the first one.  `d16` is the 16-bit
two's-complement encoding of `int16_t(int32_t(cur) - int32_t(prev))`, i.e.
`(cur - prev) mod 2^16` (all values are `uint16_t`, so `< 65536`); `d == 0`
iff `d16 = 0`.  A zero-delta run is flushed when the `uint8_t` accumulator
reaches 255 (the current delta then starts the next run) or when a nonzero
delta arrives; the last run is flushed at end of field. -/
def encodeOps (prev zrun : Nat) : List Nat → List Nat
  | [] => if zrun ≠ 0 then [0, zrun] else []
  | cur :: rest =>
    let d16 := (cur + 65536 - prev) % 65536
    if d16 = 0 then
      if zrun = 255 then 0 :: 255 :: encodeOps prev 1 rest
      else encodeOps prev (zrun + 1) rest
    else
      (if zrun ≠ 0 then [0, zrun] else []) ++
        (1 :: d16 % 256 :: d16 / 256 :: encodeOps cur 0 rest)

/-- `codec::encode_delta_rle_v1` (`codec.cpp`).  `n` is the `uint16_t` cast
of `recs.size()`; the header is `version=1`, `n_fields=10`, `n` (LE),
4 reserved zero bytes.  For a nonempty batch the first-row values of
`recs[0]` follow, then the ten per-field opcode streams (the loops run over
indices `1..n-1`, i.e. over `recs.take n`), then the CRC-32 of everything
before it.  (The `order` out-parameter is always the fixed `field_order`
list.) -/
def encode_delta_rle_v1 (recs : List buffer.Record) : List Nat :=
  let n := recs.length % 65536
  let header := [1, 10, n % 256, n / 256, 0, 0, 0, 0]
  if n = 0 then header ++ put_u32 (crc32_ieee header)
  else
    let rs := recs.take n
    let init_vals := field_view (rs.headD default).s
    let firstRow := init_vals.flatMap put_u16
    let streams := (List.range 10).flatMap (fun f =>
      encodeOps (init_vals.getD f 0) 0
        ((rs.drop 1).map (fun rec => (field_view rec.s).getD f 0)))
    let pre := header ++ firstRow ++ streams
    pre ++ put_u32 (crc32_ieee pre)

/-- The `while (produced < n-1)` loop of `decode_delta_rle_v1` for one
field.  `produced` is the list of values decoded after the first one; `r`
is the blob suffix from the current offset (still ending with the 4 CRC
bytes), so the source's bounds checks translate as
`off >= blob.size()-4  ⟺  r.length ≤ 4` and
`off+2 > blob.size()-4  ⟺  r1.length ≤ 5`.
The run opcode appends `len` copies unconditionally, as the source loop
does (`fields[f][1+produced++]` — for a hostile blob the C++ writes past
the vector's end; here the list simply grows and the surplus is ignored).
`fuel` only bounds the iteration count; every iteration consumes at least
two bytes of `r`, so `fuel = r.length` never exhausts before a `return`. -/
def decodeFieldLoop (fuel : Nat) (last : Nat) (produced : List Nat)
    (need : Nat) (r : List Nat) : Option (List Nat × List Nat) :=
  if produced.length ≥ need then some (produced, r)
  else match fuel with
  | 0 => none
  | fuel + 1 =>
    if r.length ≤ 4 then none
    else match r with
      | [] => none
      | op :: r1 =>
        if op = 0 then
          if r1.length ≤ 4 then none
          else match r1 with
            | [] => none
            | len :: r2 =>
              decodeFieldLoop fuel last (produced ++ List.replicate len last)
                need r2
        else if op = 1 then
          if r1.length ≤ 5 then none
          else match r1 with
            | lo :: hi :: r2 =>
              let cur := (last + (lo + 256 * hi)) % 65536
              decodeFieldLoop fuel cur (produced ++ [cur]) need r2
            | _ => none
        else none

/-- The `for (f)` loop of the decoder: decode every field's stream in turn,
threading the blob suffix; each row is the first value followed by the
decoded remainder. -/
def decodeFields (firsts : List Nat) (need : Nat) (r : List Nat) :
    Option (List (List Nat) × List Nat) :=
  match firsts with
  | [] => some ([], r)
  | fv :: fs =>
    match decodeFieldLoop r.length fv [] need r with
    | none => none
    | some (prod, r1) =>
      match decodeFields fs need r1 with
      | none => none
      | some (rows, r2) => some ((fv :: prod) :: rows, r2)

/-- Sequential `get_u16` reads of the first-value row. -/
def readU16s : Nat → List Nat → List Nat
  | 0, _ => []
  | k + 1, bytes =>
    (bytes.getD 0 0 + 256 * bytes.getD 1 0) :: readU16s k (bytes.drop 2)

/-- The sample built from the decoded field matrix at index `i`
(`out_samples[i]` assembly of `decode_delta_rle_v1`). -/
def sampleOfRows (rows : List (List Nat)) (i : Nat) : acquisition.Sample :=
  { vac1 := (rows.getD 0 []).getD i 0
    iac1 := (rows.getD 1 []).getD i 0
    fac1 := (rows.getD 2 []).getD i 0
    vpv1 := (rows.getD 3 []).getD i 0
    vpv2 := (rows.getD 4 []).getD i 0
    ipv1 := (rows.getD 5 []).getD i 0
    ipv2 := (rows.getD 6 []).getD i 0
    temp := (rows.getD 7 []).getD i 0
    export_percent := (rows.getD 8 []).getD i 0
    pac := (rows.getD 9 []).getD i 0 }

/-- `codec::decode_delta_rle_v1` (`codec.cpp`).  The caller's
`out_samples` vector is passed in and returned: every early `return false`
leaves it untouched; only the success path (after the CRC check) writes it.
Checks, in source order: size `≥ 12`; version byte `= 1`; size
`≥ off + nf*2 + 4` after reading `nf` and `n`; the per-field opcode loops;
the trailing CRC-32.  `need` reflects the source's `produced < n-1`
comparison, in which `n-1` is computed in `int` and converted to `size_t`:
for `n = 0` it is `2^64 - 1`. -/
def decode_delta_rle_v1 (blob : List Nat)
    (out_samples : List acquisition.Sample) :
    Bool × List acquisition.Sample :=
  if blob.length < 12 then (false, out_samples)
  else if blob.getD 0 0 ≠ 1 then (false, out_samples)
  else
    let nf := blob.getD 1 0
    let n := blob.getD 2 0 + 256 * blob.getD 3 0
    if blob.length < 8 + nf * 2 + 4 then (false, out_samples)
    else
      let firsts := readU16s nf (blob.drop 8)
      let r0 := blob.drop (8 + 2 * nf)
      let need := if n = 0 then 2 ^ 64 - 1 else n - 1
      match decodeFields firsts need r0 with
      | none => (false, out_samples)
      | some (rows, _) =>
        if get_u32v (blob.drop (blob.length - 4)) ≠
            crc32_ieee (blob.take (blob.length - 4)) then (false, out_samples)
        else (true, (List.range n).map (fun i => sampleOfRows rows i))

end codec

namespace security

/-- `std::string::compare`-style prefix test: does `pat` occur at the head of the
second list?  Used to model `std::string::find`. -/
def startsWithL : List Char → List Char → Bool
  | [], _ => true
  | _ :: _, [] => false
  | a :: as, b :: bs => a == b && startsWithL as bs

/-- Index of the first occurrence of `pat` in a list (`std::string::find`). -/
def findIdx (pat : List Char) : List Char → Option Nat
  | [] => if startsWithL pat [] then some 0 else none
  | c :: cs =>
    if startsWithL pat (c :: cs) then some 0
    else (findIdx pat cs).map (fun k => k + 1)

/-- A pattern whose mismatch is witnessed inside the available prefix. -/
def failsOn : List Char → List Char → Bool
  | [], _ => false
  | _ :: _, [] => false
  | a :: as, b :: bs => (a != b) || failsOn as bs

/-- `s.find(pat, start)` of `std::string`, as an absolute index. -/
def strFind (s pat : List Char) (start : Nat) : Option Nat :=
  (findIdx pat (s.drop start)).map (fun k => start + k)

/-- C `isdigit` on the ASCII range scanned by `json_get_u64`. -/
def isDigitC (c : Char) : Bool := decide (48 ≤ c.toNat) && decide (c.toNat ≤ 57)

/-- C `isspace`: space, \t, \n, \v, \f, \r. -/
def isSpaceC (c : Char) : Bool :=
  c.toNat == 32 || (decide (9 ≤ c.toNat) && decide (c.toNat ≤ 13))

/-- Length of the maximal prefix whose characters satisfy `p`
(the `while (... && pred(s[i])) ++i` scans of `json_get_u64`). -/
def countWhile (p : Char → Bool) : List Char → Nat
  | [] => 0
  | c :: cs => if p c then countWhile p cs + 1 else 0

/-- `strtoull(..., 10)` on a digit string. -/
def parseDec (s : List Char) : Nat := s.foldl (fun a c => 10 * a + (c.toNat - 48)) 0

/-- C `tolower` on ASCII. -/
def tolowerC (c : Char) : Char :=
  if 65 ≤ c.toNat ∧ c.toNat ≤ 90 then Char.ofNat (c.toNat + 32) else c

/-- `eq_ci_hex` of security.cpp: size equality plus case-insensitive
character-by-character comparison. -/
def eq_ci_hex (a b : List Char) : Bool :=
  a.length == b.length && (a.zip b).all (fun pc => tolowerC pc.1 == tolowerC pc.2)

/-- `json_get_str` of security.cpp: find `"key"`, then `:`, then the opening
quote, then the closing quote, and return the characters in between.
Any failing `find` returns the empty string. -/
def json_get_str (s : List Char) (key : List Char) : List Char :=
  let k := '\x22' :: key ++ ['\x22']
  match strFind s k 0 with
  | none => []
  | some p =>
    match strFind s [':'] p with
    | none => []
    | some p2 =>
      match strFind s ['\x22'] p2 with
      | none => []
      | some p3 =>
        match strFind s ['\x22'] (p3 + 1) with
        | none => []
        | some e => (s.drop (p3 + 1)).take (e - (p3 + 1))

/-- `json_get_u64` of security.cpp: find `"key"`, then `:`, skip spaces, scan a
nonempty digit run and parse it in base 10. -/
def json_get_u64 (s : List Char) (key : List Char) : Option Nat :=
  let k := '\x22' :: key ++ ['\x22']
  match strFind s k 0 with
  | none => none
  | some p =>
    match strFind s [':'] p with
    | none => none
    | some p2 =>
      let start := p2 + 1 + countWhile isSpaceC (s.drop (p2 + 1))
      let dlen := countWhile isDigitC (s.drop start)
      if dlen = 0 then none
      else some (parseDec ((s.drop start).take dlen))

/-- The ASCII digit character for `d % 10` (`snprintf "%llu"` emits these). -/
def digitChar (d : Nat) : Char := Char.ofNat (48 + d % 10)

/-- Fuel-driven decimal printer; `fuel` bounds the number of digits. -/
def natDigitsAux : Nat → Nat → List Char
  | 0, _ => []
  | fuel + 1, n =>
    if n < 10 then [digitChar n]
    else natDigitsAux fuel (n / 10) ++ [digitChar (n % 10)]

/-- `snprintf(buf, sizeof buf, "%llu", n)`: decimal digits of `n`. -/
def natDigits (n : Nat) : List Char := natDigitsAux (n + 1) n

/-- Value of a base64 alphabet character (RFC 4648, as decoded by
`mbedtls_base64_decode`, an external library call). -/
def b64Val (c : Char) : Option Nat :=
  if 65 ≤ c.toNat ∧ c.toNat ≤ 90 then some (c.toNat - 65)
  else if 97 ≤ c.toNat ∧ c.toNat ≤ 122 then some (c.toNat - 97 + 26)
  else if 48 ≤ c.toNat ∧ c.toNat ≤ 57 then some (c.toNat - 48 + 52)
  else if c = '+' then some 62
  else if c = '/' then some 63
  else none

/-- The base64 alphabet (RFC 4648). -/
def b64Char (n : Nat) : Char :=
  (['A','B','C','D','E','F','G','H','I','J','K','L','M','N','O','P','Q','R','S',
    'T','U','V','W','X','Y','Z','a','b','c','d','e','f','g','h','i','j','k','l',
    'm','n','o','p','q','r','s','t','u','v','w','x','y','z','0','1','2','3','4',
    '5','6','7','8','9','+','/']).getD n 'A'

/-- `b64_encode` of security.cpp (`mbedtls_base64_encode`, an external library
call, modelled as standard RFC 4648 encoding; bytes are the characters'
code points). -/
def b64_encode : List Char → List Char
  | [] => []
  | [a] => [b64Char (a.toNat / 4), b64Char (a.toNat % 4 * 16), '=', '=']
  | [a, b] => [b64Char (a.toNat / 4), b64Char (a.toNat % 4 * 16 + b.toNat / 16),
               b64Char (b.toNat % 16 * 4), '=']
  | a :: b :: c :: rest =>
    b64Char (a.toNat / 4) :: b64Char (a.toNat % 4 * 16 + b.toNat / 16)
      :: b64Char (b.toNat % 16 * 4 + c.toNat / 64) :: b64Char (c.toNat % 64)
      :: b64_encode rest

/-- Four-character groups of RFC 4648 decoding (`mbedtls_base64_decode`,
an external library call). -/
def b64DecodeGroups : List Char → Option (List Char)
  | [] => some []
  | a :: b :: c :: d :: rest =>
    (match b64Val a, b64Val b with
     | some va, some vb =>
       let n1 := Char.ofNat (va * 4 + vb / 16)
       if c = '=' then (if d = '=' ∧ rest = [] then some [n1] else none)
       else
         (match b64Val c with
          | some vc =>
            let n2 := Char.ofNat (vb % 16 * 16 + vc / 4)
            if d = '=' then (if rest = [] then some [n1, n2] else none)
            else
              (match b64Val d, b64DecodeGroups rest with
               | some vd, some t =>
                 some (n1 :: n2 :: Char.ofNat (vc % 4 * 64 + vd) :: t)
               | _, _ => none)
          | none => none)
     | _, _ => none)
  | _ => none

/-- `b64_decode` of security.cpp: empty string on any decoding failure. -/
def b64_decode (s : List Char) : List Char :=
  match b64DecodeGroups s with
  | some out => out
  | none => []

/-- The text `","mac":"` + mac + `"}` closing the envelope. -/
def envTailMac (mac : List Char) : List Char :=
  '\x22' :: ',' :: '\x22' :: 'm' :: 'a' :: 'c' :: '\x22' :: ':' :: '\x22' ::
    (mac ++ '\x22' :: '\x7d' :: [])

/-- The text `,"payload":"` + payload + the mac tail. -/
def envTailPayload (payload mac : List Char) : List Char :=
  ',' :: '\x22' :: 'p' :: 'a' :: 'y' :: 'l' :: 'o' :: 'a' :: 'd' :: '\x22' ::
    ':' :: '\x22' :: (payload ++ envTailMac mac)

/-- The envelope text `{"nonce":BUF,"payload":"P","mac":"M"}` that
`wrap_json_with_hmac` concatenates (security.cpp lines building `out`). -/
def mkEnvelope (buf payload mac : List Char) : List Char :=
  '\x7b' :: '\x22' :: 'n' :: 'o' :: 'n' :: 'c' :: 'e' :: '\x22' :: ':' ::
    (buf ++ envTailPayload payload mac)

/-- `wrap_json_with_hmac` of security.cpp.  `hmac` abstracts `hmac_sha256`
(mbedtls, external): it maps a key and a message to the hex digest text. -/
def wrap_json_with_hmac (hmac : List Char → List Char → List Char)
    (payload_json psk : List Char) (next_device_nonce : Nat) : List Char :=
  let p_b64 := b64_encode payload_json
  let buf := natDigits next_device_nonce
  let msg := buf ++ '.' :: p_b64
  mkEnvelope buf p_b64 (hmac psk msg)

/-- `unwrap_and_verify_envelope` of security.cpp, returning the optional
payload together with the final value of `last_seen_nonce_io`.  `hmac`
abstracts `hmac_sha256` (mbedtls, external, modelled as total). -/
def unwrap_and_verify_envelope (hmac : List Char → List Char → List Char)
    (env_json psk : List Char) (last_seen_nonce : Nat)
    (treat_payload_as_base64 : Bool) : Option (List Char) × Nat :=
  match json_get_u64 env_json ['n','o','n','c','e'] with
  | none => (none, last_seen_nonce)
  | some nonce =>
    let payload := json_get_str env_json ['p','a','y','l','o','a','d']
    let mac_hex := json_get_str env_json ['m','a','c']
    if payload = [] ∨ mac_hex = [] then (none, last_seen_nonce)
    else
      let msg := natDigits nonce ++ '.' :: payload
      if eq_ci_hex (hmac psk msg) mac_hex = false then (none, last_seen_nonce)
      else if nonce ≤ last_seen_nonce then (none, last_seen_nonce)
      else if treat_payload_as_base64 then
        let bin := b64_decode payload
        if bin = [] then (none, nonce) else (some bin, nonce)
      else (some payload, nonce)

end security

namespace fota

/-- `fota::Manifest` (fota.hpp): version string, image size, hash hex, chunk size. -/
structure Manifest where
  version : List Char
  size : Nat
  hash_hex : List Char
  chunk_size : Nat
deriving Repr, DecidableEq, Inhabited

/-- The session state `S` of fota.cpp.  The streaming `mbedtls_sha256` context is
modelled by `shaAcc`, the list of bytes fed to it so far; `ota` is the OTA handle
(0 = none) and `part` records whether a target partition pointer is held. -/
structure FotaState where
  session_active : Bool
  mf : Manifest
  ota : Nat
  part : Bool
  bytes_written : Nat
  next_chunk : Nat
  finalize_requested : Bool
  finalized : Bool
  shaAcc : List Nat
  sha_init : Bool
  last_error : List Char
deriving Repr, DecidableEq, Inhabited

/-- `State{}` — the value-initialised reset state of fota.cpp. -/
def FotaState.init : FotaState :=
  { session_active := false
    mf := default
    ota := 0
    part := false
    bytes_written := 0
    next_chunk := 0
    finalize_requested := false
    finalized := false
    shaAcc := []
    sha_init := false
    last_error := [] }

/-- The five persisted NVS values of the `fota` namespace
(`mf.ver`, `mf.hash`, `mf.size`, `bytes_written`, `next_chunk`). -/
structure Nvs where
  ver : List Char
  hash : List Char
  sz : Nat
  wr : Nat
  next : Nat
deriving Repr, DecidableEq, Inhabited

/-- The external environment of fota.cpp: ESP-IDF OTA partition calls and the
mbedtls primitives, abstracted as oracle values/functions.  `sha256` maps the
bytes fed to the streaming context to the 32-byte digest; `b64dec` is
`mbedtls_base64_decode` wrapped by `b64dec` (empty list = failure). -/
structure FotaEnv where
  nextUpdatePartition : Bool
  otaBeginOk : Bool
  partReadOk : Bool
  partitionData : List Nat
  otaWriteOk : Bool
  otaEndOk : Bool
  setBootOk : Bool
  sha256 : List Nat → List Nat
  b64dec : List Char → List Nat

/-- The nibble decoder `v` inside `finalize_and_apply`'s `hex2bin`
(digits, then `c |= 0x20` and `a`..`f`). -/
def hexNib (c : Char) : Option Nat :=
  if 48 ≤ c.toNat ∧ c.toNat ≤ 57 then some (c.toNat - 48)
  else
    if 97 ≤ c.toNat ||| 32 ∧ c.toNat ||| 32 ≤ 102 then some ((c.toNat ||| 32) - 97 + 10)
    else none

/-- Pairwise hex decoding of `hex2bin`'s loop body. -/
def hex2binAux : List Char → Option (List Nat)
  | [] => some []
  | c1 :: c2 :: rest =>
    (match hexNib c1, hexNib c2 with
     | some hi, some lo => (hex2binAux rest).map (fun t => (hi * 16 + lo) :: t)
     | _, _ => none)
  | _ => none

/-- `hex2bin` of `finalize_and_apply`: 64 hex chars to 32 bytes. -/
def hex2bin (h : List Char) : Option (List Nat) :=
  if h.length = 64 then hex2binAux h else none

/-- `fota::start` (fota.cpp): duplicate-manifest no-op, abort of a different
active session, partition/begin failures, resume path (clamp `wr`, reset a
nonsense `next`, rebuild the rolling SHA from partition bytes) and fresh path
(zero counters, persist manifest and progress).  Returns the `bool` result with
the new state and NVS contents. -/
def start (env : FotaEnv) (st : FotaState) (nv : Nvs) (m : Manifest) :
    Bool × FotaState × Nvs :=
  let can_resume := nv.ver == m.version && nv.hash == m.hash_hex &&
    nv.sz == m.size && decide (nv.wr < nv.sz)
  if st.session_active &&
      (st.mf.version == m.version && st.mf.hash_hex == m.hash_hex &&
        st.mf.size == m.size) then
    (true, st, nv)
  else
    let st1 := if st.session_active && !can_resume then FotaState.init else st
    let st2 := { st1 with
                 session_active := true
                 mf := m
                 last_error := []
                 finalize_requested := false
                 finalized := false
                 part := env.nextUpdatePartition }
    if !env.nextUpdatePartition then
      (false, { st2 with last_error := "no-update-partition".data }, nv)
    else if can_resume && decide (0 < nv.wr) then
      if !env.otaBeginOk then
        (false, { st2 with last_error := "ota-begin-resume".data }, nv)
      else if !env.partReadOk then
        (false, { st2 with ota := 1, last_error := "resume-read".data }, nv)
      else
        let wr' := min nv.wr m.size
        let chunks_total := (m.size + m.chunk_size - 1) / m.chunk_size
        let next' := if chunks_total < nv.next then 0 else nv.next
        (true, { st2 with
                 ota := 1
                 sha_init := true
                 shaAcc := env.partitionData.take wr'
                 bytes_written := wr'
                 next_chunk := next' }, nv)
    else
      if !env.otaBeginOk then
        (false, { st2 with last_error := "ota-begin".data }, nv)
      else
        (true, { st2 with
                 ota := 1
                 bytes_written := 0
                 next_chunk := 0
                 sha_init := true
                 shaAcc := [] },
          { nv with
            ver := m.version
            hash := m.hash_hex
            sz := m.size
            wr := 0
            next := 0 })

/-- `fota::ingest_chunk` (fota.cpp): session guard, strict chunk ordering,
base64 decode, bounds check, OTA write, then hash/counter update and persisted
progress; `next_chunk` is a `uint32_t`, hence the `% 2^32`. -/
def ingest_chunk (env : FotaEnv) (st : FotaState) (nv : Nvs)
    (number : Nat) (b64 : List Char) : Bool × FotaState × Nvs :=
  if !st.session_active || !st.sha_init || st.finalized then (false, st, nv)
  else if number ≠ st.next_chunk then
    (false, { st with last_error := "out-of-order".data }, nv)
  else
    let bin := env.b64dec b64
    if bin = [] then (false, { st with last_error := "bad-b64".data }, nv)
    else if st.mf.size < st.bytes_written + bin.length then
      (false, { st with last_error := "overflow".data }, nv)
    else if !env.otaWriteOk then
      (false, { st with last_error := "ota-write".data }, nv)
    else
      let st1 := { st with
                   shaAcc := st.shaAcc ++ bin
                   bytes_written := st.bytes_written + bin.length
                   next_chunk := (number + 1) % 4294967296 }
      let st2 := if st1.bytes_written = st1.mf.size then
          { st1 with finalize_requested := true } else st1
      (true, st2, { nv with
                    wr := st1.bytes_written
                    next := st1.next_chunk })

/-- Result of `fota::finalize_and_apply`: the returned `bool`, the two
by-reference out-parameters, whether `esp_ota_set_boot_partition` was invoked
successfully (boot switch), and the final state and NVS contents. -/
structure FinalizeResult where
  ret : Bool
  okVerify : Bool
  okApply : Bool
  bootSwitched : Bool
  st : FotaState
  nv : Nvs
deriving Repr, DecidableEq

/-- `fota::finalize_and_apply` (fota.cpp): guards, digest of the fed bytes
against `hex2bin mf.hash_hex`, `esp_ota_end`, and on verify failure marking the
session finalized and clearing the persisted progress counters without
switching boot; on verify success switching boot (and rebooting). -/
def finalize_and_apply (env : FotaEnv) (st : FotaState) (nv : Nvs) :
    FinalizeResult :=
  if !st.session_active || st.finalized then ⟨false, false, false, false, st, nv⟩
  else if !st.sha_init then ⟨false, false, false, false, st, nv⟩
  else if st.bytes_written ≠ st.mf.size then ⟨false, false, false, false, st, nv⟩
  else
    let sha_out := env.sha256 st.shaAcc
    let st1 := { st with sha_init := false }
    match hex2bin st.mf.hash_hex with
    | none =>
      ⟨false, false, false, false,
        { st1 with last_error := "bad-hash-format".data }, nv⟩
    | some want =>
      let ok_verify := sha_out == want
      if !env.otaEndOk then
        ⟨false, ok_verify, false, false,
          { st1 with last_error := "ota-end".data }, nv⟩
      else if !ok_verify then
        ⟨false, false, false, false, { st1 with finalized := true },
          { nv with
            wr := 0
            next := 0 }⟩
      else if env.setBootOk then
        ⟨true, true, true, true, { st1 with finalized := true },
          { nv with
            wr := 0
            next := 0 }⟩
      else
        ⟨false, true, false, false,
          { st1 with last_error := "set-boot".data }, nv⟩

/-- A concrete environment used to exercise the FOTA functions: all ESP-IDF
calls succeed, the digest oracle returns a fixed wrong value, and every chunk
decodes to the two bytes `[9, 9]`. -/
def wEnv : FotaEnv :=
  { nextUpdatePartition := true
    otaBeginOk := true
    partReadOk := true
    partitionData := []
    otaWriteOk := true
    otaEndOk := true
    setBootOk := true
    sha256 := fun _ => [0]
    b64dec := fun _ => [9, 9] }

/-- A concrete manifest: 4 bytes in chunks of 2, hash `aa…aa`. -/
def wMf : Manifest :=
  { version := ['v'], size := 4, hash_hex := List.replicate 64 'a', chunk_size := 2 }

/-- A concrete active session state for `wMf` with nothing written yet. -/
def wSt : FotaState :=
  { FotaState.init with
    session_active := true
    sha_init := true
    mf := wMf
    ota := 1
    part := true }

/-- Concrete persisted NVS contents matching `wMf`. -/
def wNv : Nvs :=
  { ver := ['v'], hash := List.replicate 64 'a', sz := 4, wr := 0, next := 0 }

end fota






namespace buffer

theorem live_length (s : Ring) : s.live.length = s.count := by
  simp [Ring.live]

theorem mod_inj_of_lt {C r i j : Nat} (hi : i < C) (hj : j < C)
    (h : (r + i) % C = (r + j) % C) : i = j := by
  have h' : i % C = j % C := Nat.ModEq.add_left_cancel' r h
  rwa [Nat.mod_eq_of_lt hi, Nat.mod_eq_of_lt hj] at h'

/-- One push step: effect on the live sequence, the flag, the counters, and
preservation of the invariant. -/
theorem push_step (s : Ring) (rec : Record) (hs : Inv s) :
    Inv (s.push rec).2 ∧ (s.push rec).2.cap = s.cap ∧
    (s.push rec).1 = decide (s.cap ≤ s.count) ∧
    (s.push rec).2.count = min (s.count + 1) s.cap ∧
    (s.push rec).2.dropped = s.dropped + (s.count + 1 - s.cap) ∧
    (s.push rec).2.live =
      (if s.count < s.cap then s.live else s.live.tail) ++ [rec] := by
  obtain ⟨hC, hcnt, hw, hr⟩ := hs
  by_cases hfull : s.count < s.cap
  · -- not yet full: the record is appended at `w`
    have hflag : ¬ s.cap ≤ s.count := by omega
    refine ⟨⟨by simpa [Ring.push, hfull] using hC, by simp [Ring.push, hfull]; omega,
             ?_, by simpa [Ring.push, hfull] using hr⟩,
            by simp [Ring.push, hfull], by simp [Ring.push, hfull, hflag],
            by simp [Ring.push, hfull]; omega, by simp [Ring.push, hfull]; omega, ?_⟩
    · simp only [Ring.push, hfull, if_true]
      rw [hw, Nat.mod_add_mod]
      have harith : s.r + s.count + 1 = s.r + (s.count + 1) := by omega
      rw [harith]
    · simp only [Ring.push, hfull, if_true, Ring.live]
      rw [List.range_succ, List.map_append, List.map_singleton]
      congr 1
      · apply List.map_congr_left
        intro i hi
        have hiC : i < s.count := List.mem_range.mp hi
        have hne : (s.r + i) % s.cap ≠ s.w := by
          intro hcontra
          rw [hw] at hcontra
          have := mod_inj_of_lt (by omega) (by omega) hcontra
          omega
        simp [hne]
      · have hww : (s.r + s.count) % s.cap = s.w := hw.symm
        simp [hww]
  · -- full: the oldest record is overwritten
    have hcc : s.count = s.cap := by omega
    have hwr : s.w = s.r := by
      rw [hw, hcc, Nat.add_mod_right, Nat.mod_eq_of_lt hr]
    have hflag : s.cap ≤ s.count := by omega
    refine ⟨⟨by simpa [Ring.push, hfull] using hC, by simp [Ring.push, hfull]; omega,
             ?_, by simp [Ring.push, hfull]; exact Nat.mod_lt _ hC⟩,
            by simp [Ring.push, hfull], by simp [Ring.push, hfull, hflag],
            by simp [Ring.push, hfull]; omega, by simp [Ring.push, hfull]; omega, ?_⟩
    · simp only [Ring.push, hfull, if_false]
      rw [hcc, hwr, Nat.mod_add_mod, Nat.add_mod_right]
    · have hpush2 : (s.push rec).2 =
          { s with recs := fun j => if j = s.w then rec else s.recs j,
                   w := (s.w + 1) % s.cap, r := (s.r + 1) % s.cap,
                   dropped := s.dropped + 1 } := by
        simp [Ring.push, hfull]
      rw [hpush2, if_neg hfull]
      show List.map (fun i => if ((s.r + 1) % s.cap + i) % s.cap = s.w then rec
              else s.recs (((s.r + 1) % s.cap + i) % s.cap)) (List.range s.count)
            = s.live.tail ++ [rec]
      obtain ⟨m, hm⟩ : ∃ m, s.cap = m + 1 := ⟨s.cap - 1, by omega⟩
      rw [hm] at hr
      rw [hcc, hm]
      have hrhs : s.live.tail =
          List.map (fun i => s.recs ((s.r + (i + 1)) % (m + 1))) (List.range m) := by
        have hlive : s.live = List.map (fun i => s.recs ((s.r + i) % (m + 1)))
            (List.range (m + 1)) := by
          simp only [Ring.live, hcc, hm]
        rw [hlive, List.range_succ_eq_map, List.map_cons, List.tail_cons, List.map_map]
        apply List.map_congr_left
        intro i _
        simp [Function.comp, Nat.succ_eq_add_one]
      rw [hrhs, List.range_succ, List.map_append, List.map_singleton]
      congr 1
      · apply List.map_congr_left
        intro i hi
        have hiC : i < m := List.mem_range.mp hi
        have harith : ((s.r + 1) % (m + 1) + i) % (m + 1) = (s.r + (i + 1)) % (m + 1) := by
          rw [Nat.mod_add_mod]
          congr 1
          omega
        have hr0 : (s.r + 0) % (m + 1) = s.r := by
          simpa using Nat.mod_eq_of_lt hr
        have hne : (s.r + (i + 1)) % (m + 1) ≠ s.w := by
          rw [hwr]
          intro hcontra
          have h2 : (s.r + (i + 1)) % (m + 1) = (s.r + 0) % (m + 1) := by
            rw [hr0, hcontra]
          have := mod_inj_of_lt (i := i + 1) (j := 0) (by omega) (by omega) h2
          omega
        rw [harith, if_neg hne]
      · have harith : ((s.r + 1) % (m + 1) + m) % (m + 1) = s.w := by
          rw [Nat.mod_add_mod, hwr]
          have h3 : s.r + 1 + m = s.r + (m + 1) := by omega
          rw [h3, Nat.add_mod_right, Nat.mod_eq_of_lt hr]
        simp [harith]

/-- Pushing a list of records: cumulative effect on live sequence, flags,
count and dropped counter. -/
theorem pushAll_spec (ps : List Record) (s : Ring) (hs : Inv s) :
    Inv (pushAll s ps).2 ∧ (pushAll s ps).2.cap = s.cap ∧
    (pushAll s ps).1 =
      (List.range ps.length).map (fun i => decide (s.cap ≤ s.count + i)) ∧
    (pushAll s ps).2.count = min (s.count + ps.length) s.cap ∧
    (pushAll s ps).2.dropped = s.dropped + (s.count + ps.length - s.cap) ∧
    (pushAll s ps).2.live = (s.live ++ ps).drop (s.count + ps.length - s.cap) := by
  induction ps generalizing s with
  | nil =>
    obtain ⟨hC, hcnt, hw, hr⟩ := hs
    have h0 : s.count - s.cap = 0 := by omega
    refine ⟨⟨hC, hcnt, hw, hr⟩, rfl, by simp [pushAll],
            by simp [pushAll]; omega, by simp [pushAll]; omega, ?_⟩
    simp [pushAll, h0]
  | cons rec rest ih =>
    obtain ⟨hinv1, hcap1, hflags1, hcnt1, hdrop1, hlive1⟩ := push_step s rec hs
    obtain ⟨hinv2, hcap2, hflags2, hcnt2, hdrop2, hlive2⟩ := ih (s.push rec).2 hinv1
    obtain ⟨hC, hcnt, hw, hr⟩ := hs
    have hlivelen : s.live.length = s.count := live_length s
    refine ⟨by simpa [pushAll] using hinv2, by simp [pushAll, hcap2, hcap1], ?_, ?_, ?_, ?_⟩
    · simp only [pushAll, List.length_cons]
      rw [hflags2, hflags1, hcap1, hcnt1]
      apply List.ext_getElem
      · simp
      · intro k h1 h2
        match k with
        | 0 => simp
        | k + 1 =>
          simp only [List.getElem_cons_succ, List.getElem_map, List.getElem_range,
                     decide_eq_decide]
          omega
    · simp only [pushAll, List.length_cons]
      rw [hcnt2, hcap1, hcnt1]
      omega
    · simp only [pushAll, List.length_cons]
      rw [hdrop2, hcap1, hcnt1, hdrop1]
      omega
    · simp only [pushAll, List.length_cons]
      rw [hlive2, hcap1, hcnt1, hlive1]
      by_cases hfull : s.count < s.cap
      · simp only [hfull, if_true]
        have hmin : min (s.count + 1) s.cap = s.count + 1 := by omega
        rw [hmin]
        have harr : s.live ++ [rec] ++ rest = s.live ++ rec :: rest := by simp
        rw [harr]
        congr 1
        omega
      · simp only [hfull, if_false]
        have hcc : s.count = s.cap := by omega
        have hmin : min (s.count + 1) s.cap = s.cap := by omega
        rw [hmin]
        have hne : s.live ≠ [] := by
          intro h
          have := live_length s
          rw [h] at this
          simp at this
          omega
        obtain ⟨a, as, hl⟩ := List.exists_cons_of_ne_nil hne
        have harr : s.live.tail ++ [rec] ++ rest = (s.live ++ rec :: rest).drop 1 := by
          rw [hl]
          simp
        rw [harr, List.drop_drop]
        congr 1
        omega

end buffer

namespace control

theorem mapAllNames_eq_none {names : List String} {n : String}
    (hn : n ∈ names) (h : mapFieldName n = none) :
    mapAllNames names = none := by
  induction names with
  | nil => cases hn
  | cons m rest ih =>
    rcases List.mem_cons.mp hn with hm | hm
    · subst hm
      simp [mapAllNames, h]
    · cases hfm : mapFieldName m with
      | none => simp [mapAllNames, hfm]
      | some v => simp [mapAllNames, hfm, ih hm]

theorem chain'_lt_dedupFrom (prev : Nat) (l : List Nat)
    (h : (prev :: l).Sorted (· ≤ ·)) :
    List.Chain' (· < ·) (prev :: dedupFrom prev l) := by
  induction l generalizing prev with
  | nil => simp [dedupFrom]
  | cons b rest ih =>
    have hle : prev ≤ b := (List.sorted_cons.mp h).1 b (by simp)
    by_cases heq : prev = b
    · rw [dedupFrom, if_pos heq]
      apply ih prev
      have hsub : (prev :: rest).Sublist (prev :: b :: rest) :=
        List.Sublist.cons₂ prev (List.sublist_cons_self b rest)
      exact List.Pairwise.sublist hsub h
    · rw [dedupFrom, if_neg heq]
      exact List.Chain'.cons (by omega) (ih b (List.sorted_cons.mp h).2)

theorem chain'_lt_dedupAdj (l : List Nat) (h : l.Sorted (· ≤ ·)) :
    List.Chain' (· < ·) (dedupAdj l) := by
  cases l with
  | nil => simp [dedupAdj]
  | cons a rest => exact chain'_lt_dedupFrom a rest h

theorem map_field_names_eq_some {names : List String} {fids : List Nat}
    (h : map_field_names names = some fids) :
    ∃ vals, mapAllNames names = some vals ∧ vals ≠ [] ∧
      fids = dedupAdj (List.insertionSort (· ≤ ·) vals) := by
  cases hm : mapAllNames names with
  | none =>
    exfalso
    unfold map_field_names at h
    rw [hm] at h
    exact Option.noConfusion h
  | some vals =>
    have h2 : (if vals = [] then none
        else some (dedupAdj (List.insertionSort (· ≤ ·) vals))) = some fids := by
      rw [← h]
      unfold map_field_names
      rw [hm]
    by_cases hv : vals = []
    · rw [if_pos hv] at h2; cases h2
    · rw [if_neg hv] at h2
      injection h2 with h2
      exact ⟨vals, rfl, hv, h2.symm⟩

end control

namespace codec

theorem crc32Step_lt {c : Nat} (h : c < 2 ^ 32) : crc32Step c < 2 ^ 32 := by
  unfold crc32Step
  split
  · exact Nat.xor_lt_two_pow (by norm_num) (by omega)
  · omega

theorem crc32Table_lt (i : Nat) : crc32Table i < 2 ^ 32 := by
  unfold crc32Table
  have h8 : ∀ k c, c < 2 ^ 32 → (crc32Step)^[k] c < 2 ^ 32 := by
    intro k
    induction k with
    | zero => intro c hc; simpa using hc
    | succ k ih =>
      intro c hc
      rw [Function.iterate_succ_apply]
      exact ih _ (crc32Step_lt hc)
  exact h8 8 _ (by have := Nat.mod_lt i (y := 256) (by norm_num); omega)

theorem crc32_ieee_lt (data : List Nat) : crc32_ieee data < 2 ^ 32 := by
  unfold crc32_ieee
  have hfold : ∀ (l : List Nat) (acc : Nat), acc < 2 ^ 32 →
      l.foldl (fun crc b => crc32Table ((crc ^^^ b) % 256) ^^^ (crc / 256))
        acc < 2 ^ 32 := by
    intro l
    induction l with
    | nil => intro acc hacc; simpa using hacc
    | cons b t ih =>
      intro acc hacc
      rw [List.foldl_cons]
      refine ih _ (Nat.xor_lt_two_pow (crc32Table_lt _) (by omega))
  exact Nat.xor_lt_two_pow (hfold data _ (by norm_num)) (by norm_num)

theorem get_u32v_put_u32 {v : Nat} (h : v < 2 ^ 32) :
    get_u32v (put_u32 v) = v := by
  simp only [get_u32v, put_u32, List.getD_cons_zero, List.getD_cons_succ]
  omega

theorem readU16s_flatMap (vs : List Nat) (rest : List Nat)
    (h : ∀ v ∈ vs, v < 65536) :
    readU16s vs.length (vs.flatMap put_u16 ++ rest) = vs := by
  induction vs with
  | nil => rfl
  | cons v t ih =>
    have hv : v < 65536 := h v (by simp)
    simp only [List.flatMap_cons, put_u16, List.length_cons, List.cons_append,
               List.append_assoc, readU16s, List.cons.injEq]
    constructor
    · simp only [List.getD_cons_zero, List.getD_cons_succ]
      omega
    · have ht := ih (fun x hx => h x (by simp [hx]))
      simpa using ht

theorem drop_flatMap_put_u16 (vs : List Nat) (rest : List Nat) :
    (vs.flatMap put_u16 ++ rest).drop (2 * vs.length) = rest := by
  induction vs with
  | nil => simp
  | cons v t ih =>
    simp only [List.flatMap_cons, put_u16, List.length_cons, List.cons_append]
    have h2 : 2 * (t.length + 1) = (2 * t.length) + 1 + 1 := by omega
    rw [h2]
    simpa using ih

theorem dfl_done (fuel last : Nat) (produced : List Nat) (need : Nat)
    (r : List Nat) (h : need ≤ produced.length) :
    decodeFieldLoop fuel last produced need r = some (produced, r) := by
  rw [decodeFieldLoop.eq_def]
  rw [if_pos (by omega)]

theorem dfl_step_run (f last : Nat) (produced : List Nat) (need len : Nat)
    (r2 : List Nat) (hlt : produced.length < need) (hr2 : 4 ≤ r2.length) :
    decodeFieldLoop (f + 1) last produced need (0 :: len :: r2)
      = decodeFieldLoop f last (produced ++ List.replicate len last) need r2 := by
  rw [decodeFieldLoop.eq_def]
  rw [if_neg (by omega)]
  have hc1 : ¬ ((0 :: len :: r2) : List Nat).length ≤ 4 := by simp; omega
  have hc2 : ¬ ((len :: r2) : List Nat).length ≤ 4 := by simp; omega
  simp [hc1, hc2]
  rw [if_neg (by omega), if_neg (by omega)]

theorem dfl_step_delta (f last : Nat) (produced : List Nat) (need lo hi : Nat)
    (r2 : List Nat) (hlt : produced.length < need) (hr2 : 4 ≤ r2.length) :
    decodeFieldLoop (f + 1) last produced need (1 :: lo :: hi :: r2)
      = decodeFieldLoop f ((last + (lo + 256 * hi)) % 65536)
          (produced ++ [(last + (lo + 256 * hi)) % 65536]) need r2 := by
  rw [decodeFieldLoop.eq_def]
  rw [if_neg (by omega)]
  have hc1 : ¬ ((1 :: lo :: hi :: r2) : List Nat).length ≤ 4 := by simp; omega
  have hc2 : ¬ ((lo :: hi :: r2) : List Nat).length ≤ 5 := by simp; omega
  simp [hc1, hc2]
  rw [if_neg (by omega), if_neg (by omega)]

/-- Round-trip of one field's opcode stream: decoding the encoder's stream
for the remaining values, starting from a pending zero-run of `zrun`
not-yet-materialised copies of `prev`, produces exactly those copies
followed by the values. -/
theorem decodeFieldLoop_encodeOps (rest : List Nat) (hrest : 4 ≤ rest.length) :
    ∀ (vals : List Nat) (prev zrun : Nat) (produced : List Nat)
      (fuel need : Nat),
    need = produced.length + zrun + vals.length →
    prev < 65536 → (∀ v ∈ vals, v < 65536) → zrun ≤ 255 →
    (encodeOps prev zrun vals).length ≤ fuel →
    decodeFieldLoop fuel prev produced need (encodeOps prev zrun vals ++ rest)
      = some (produced ++ List.replicate zrun prev ++ vals, rest) := by
  intro vals
  induction vals with
  | nil =>
    intro prev zrun produced fuel need hneed hprev hvals hz hfuel
    simp only [List.length_nil, Nat.add_zero] at hneed
    by_cases hz0 : zrun = 0
    · subst hz0
      have hs : encodeOps prev 0 [] = [] := by simp [encodeOps]
      rw [hs, List.nil_append]
      rw [dfl_done _ _ _ _ _ (by omega)]
      simp
    · have hs : encodeOps prev zrun [] = [0, zrun] := by simp [encodeOps, hz0]
      rw [hs] at hfuel ⊢
      obtain ⟨f, rfl⟩ : ∃ f, fuel = f + 1 := ⟨fuel - 1, by simp at hfuel; omega⟩
      simp only [List.cons_append, List.nil_append]
      rw [dfl_step_run f prev produced need zrun rest (by omega) hrest]
      rw [dfl_done _ _ _ _ _ (by simp; omega)]
      simp
  | cons cur vs ih =>
    intro prev zrun produced fuel need hneed hprev hvals hz hfuel
    simp only [List.length_cons] at hneed
    have hcur : cur < 65536 := hvals cur (by simp)
    have hvs : ∀ v ∈ vs, v < 65536 := fun v hv => hvals v (by simp [hv])
    by_cases hd : (cur + 65536 - prev) % 65536 = 0
    · -- zero delta: cur = prev
      have hcp : cur = prev := by omega
      by_cases h255 : zrun = 255
      · subst h255
        have hs : encodeOps prev 255 (cur :: vs)
            = 0 :: 255 :: encodeOps prev 1 vs := by
          simp only [encodeOps]
          simp [hd]
        rw [hs] at hfuel ⊢
        obtain ⟨f, rfl⟩ : ∃ f, fuel = f + 1 :=
          ⟨fuel - 1, by simp at hfuel; omega⟩
        simp only [List.cons_append]
        rw [dfl_step_run f prev produced need 255 _ (by omega)
            (by simp; omega)]
        rw [ih prev 1 (produced ++ List.replicate 255 prev) f need
            (by simp; omega) hprev hvs (by omega) (by simp at hfuel; omega)]
        simp [hcp]
      · have hs : encodeOps prev zrun (cur :: vs)
            = encodeOps prev (zrun + 1) vs := by
          simp only [encodeOps]
          simp [hd, h255]
        rw [hs] at hfuel ⊢
        rw [ih prev (zrun + 1) produced fuel need (by omega) hprev hvs
            (by omega) hfuel]
        rw [List.replicate_succ']
        simp [hcp]
    · -- nonzero delta
      have hdlt : (cur + 65536 - prev) % 65536 < 65536 :=
        Nat.mod_lt _ (by norm_num)
      have hdec : (prev + ((cur + 65536 - prev) % 65536 % 256
          + 256 * ((cur + 65536 - prev) % 65536 / 256))) % 65536 = cur := by
        omega
      by_cases hz0 : zrun = 0
      · subst hz0
        have hs : encodeOps prev 0 (cur :: vs)
            = 1 :: (cur + 65536 - prev) % 65536 % 256
              :: (cur + 65536 - prev) % 65536 / 256 :: encodeOps cur 0 vs := by
          simp only [encodeOps]
          simp [hd]
        rw [hs] at hfuel ⊢
        obtain ⟨f, rfl⟩ : ∃ f, fuel = f + 1 :=
          ⟨fuel - 1, by simp at hfuel; omega⟩
        simp only [List.cons_append]
        rw [dfl_step_delta f prev produced need _ _ _ (by omega)
            (by simp; omega)]
        rw [hdec]
        rw [ih cur 0 (produced ++ [cur]) f need (by simp; omega) hcur hvs
            (by omega) (by simp at hfuel; omega)]
        simp
      · have hs : encodeOps prev zrun (cur :: vs)
            = 0 :: zrun :: 1 :: (cur + 65536 - prev) % 65536 % 256
              :: (cur + 65536 - prev) % 65536 / 256 :: encodeOps cur 0 vs := by
          simp only [encodeOps]
          simp [hd, hz0]
        rw [hs] at hfuel ⊢
        obtain ⟨f, rfl⟩ : ∃ f, fuel = f + 1 + 1 :=
          ⟨fuel - 2, by simp at hfuel; omega⟩
        simp only [List.cons_append]
        rw [dfl_step_run (f + 1) prev produced need zrun _ (by omega)
            (by simp; omega)]
        rw [dfl_step_delta f prev (produced ++ List.replicate zrun prev) need
            _ _ _ (by simp; omega) (by simp; omega)]
        rw [hdec]
        rw [ih cur 0 ((produced ++ List.replicate zrun prev) ++ [cur]) f need
            (by simp; omega) hcur hvs (by omega) (by simp at hfuel; omega)]
        simp


/-- Round-trip of all per-field streams: `cols` pairs each field's first
value with its remaining values. -/
theorem decodeFields_encodeOps (rest : List Nat) (hrest : 4 ≤ rest.length) :
    ∀ (cols : List (Nat × List Nat)) (need : Nat),
    (∀ pc ∈ cols, pc.1 < 65536 ∧ (∀ v ∈ pc.2, v < 65536) ∧
      pc.2.length = need) →
    decodeFields (cols.map Prod.fst) need
        ((cols.flatMap (fun pc => encodeOps pc.1 0 pc.2)) ++ rest)
      = some (cols.map (fun pc => pc.1 :: pc.2), rest) := by
  intro cols
  induction cols with
  | nil => intro need _; simp [decodeFields]
  | cons pc cs ih =>
    intro need hcols
    obtain ⟨h1, h2, h3⟩ := hcols pc (by simp)
    simp only [List.map_cons, List.flatMap_cons, List.append_assoc,
               decodeFields]
    rw [decodeFieldLoop_encodeOps
        (cs.flatMap (fun qc => encodeOps qc.1 0 qc.2) ++ rest)
        (by simp; omega) pc.2 pc.1 0 [] _ need (by simpa using h3.symm) h1 h2
        (by omega) (by simp)]
    dsimp only
    rw [ih need (fun qc hqc => hcols qc (by simp [hqc]))]
    simp

theorem length_flatMap_put_u16 (vs : List Nat) :
    (vs.flatMap put_u16).length = 2 * vs.length := by
  induction vs with
  | nil => rfl
  | cons v t ih =>
    simp only [List.flatMap_cons, put_u16, List.length_append, List.length_cons,
               List.length_nil, ih]
    omega

theorem getD_lt_65536 (l : List Nat) (h : ∀ v ∈ l, v < 65536) (i : Nat) :
    l.getD i 0 < 65536 := by
  by_cases hi : i < l.length
  · rw [List.getD_eq_getElem l 0 hi]
    exact h _ (List.getElem_mem hi)
  · rw [List.getD_eq_default l 0 (by omega)]
    norm_num

theorem map_getD_range (l : List Nat) (d : Nat) :
    (List.range l.length).map (fun i => l.getD i d) = l := by
  induction l with
  | nil => rfl
  | cons a t ih =>
    rw [List.length_cons, List.range_succ_eq_map, List.map_cons, List.map_map]
    simp only [List.getD_cons_zero]
    congr 1

theorem field_view_lt (s : acquisition.Sample) (h : acquisition.SampleWF s) :
    ∀ v ∈ field_view s, v < 65536 := by
  obtain ⟨w1, w2, w3, w4, w5, w6, w7, w8, w9, w10⟩ := h
  intro v hv
  simp only [field_view, List.mem_cons, List.not_mem_nil, or_false] at hv
  rcases hv with rfl | rfl | rfl | rfl | rfl | rfl | rfl | rfl | rfl | rfl <;>
    assumption

/-- `Sample.mk` of the `field_view` reads is the sample itself. -/
theorem sample_mk_field_view (s : acquisition.Sample) :
    acquisition.Sample.mk ((field_view s).getD 0 0) ((field_view s).getD 1 0)
      ((field_view s).getD 2 0) ((field_view s).getD 3 0)
      ((field_view s).getD 4 0) ((field_view s).getD 5 0)
      ((field_view s).getD 6 0) ((field_view s).getD 7 0)
      ((field_view s).getD 8 0) ((field_view s).getD 9 0) = s := by
  cases s
  rfl

/-- Decoding succeeds on any well-shaped encoder output: header for `n`
samples, first-row of the ten initial values, the ten per-field streams,
and the trailing CRC. -/
theorem decode_success (n : Nat) (hn1 : 1 ≤ n) (hn2 : n < 65536)
    (iv : List Nat) (hivlen : iv.length = 10) (hivb : ∀ v ∈ iv, v < 65536)
    (tails : Nat → List Nat) (htlen : ∀ f, (tails f).length = n - 1)
    (htv : ∀ f, ∀ v ∈ tails f, v < 65536) (out0 : List acquisition.Sample) :
    decode_delta_rle_v1
      (([1, 10, n % 256, n / 256, 0, 0, 0, 0] ++ iv.flatMap put_u16 ++
          (List.range 10).flatMap (fun f => encodeOps (iv.getD f 0) 0 (tails f)))
        ++ put_u32 (crc32_ieee
            ([1, 10, n % 256, n / 256, 0, 0, 0, 0] ++ iv.flatMap put_u16 ++
              (List.range 10).flatMap
                (fun f => encodeOps (iv.getD f 0) 0 (tails f)))))
      out0
    = (true, (List.range n).map (fun i =>
        sampleOfRows ((List.range 10).map (fun f => iv.getD f 0 :: tails f)) i)) := by
  set streams := (List.range 10).flatMap
    (fun f => encodeOps (iv.getD f 0) 0 (tails f)) with hstreams
  set pre := [1, 10, n % 256, n / 256, 0, 0, 0, 0] ++ iv.flatMap put_u16
    ++ streams with hpre
  set crc4 := put_u32 (crc32_ieee pre) with hcrc4
  set blob := pre ++ crc4 with hblobdef
  have hfm_len : (iv.flatMap put_u16).length = 20 := by
    rw [length_flatMap_put_u16, hivlen]
  have hpre_len : pre.length = 28 + streams.length := by
    rw [hpre]
    simp only [List.length_append, List.length_cons, List.length_nil, hfm_len]
  have hcrc4_len : crc4.length = 4 := by
    rw [hcrc4]
    rfl
  have hblob_len : blob.length = pre.length + 4 := by
    rw [hblobdef]
    simp [hcrc4_len]
  have hblob_cons : blob = 1 :: 10 :: n % 256 :: n / 256 :: 0 :: 0 :: 0 :: 0 ::
      (iv.flatMap put_u16 ++ (streams ++ crc4)) := by
    rw [hblobdef, hpre]
    simp
  have hg0 : blob.getD 0 0 = 1 := by rw [hblob_cons]; rfl
  have hg1 : blob.getD 1 0 = 10 := by rw [hblob_cons]; rfl
  have hg2 : blob.getD 2 0 = n % 256 := by rw [hblob_cons]; rfl
  have hg3 : blob.getD 3 0 = n / 256 := by rw [hblob_cons]; rfl
  have hlen12 : ¬ blob.length < 12 := by omega
  have hlen32 : ¬ blob.length < 8 + 10 * 2 + 4 := by omega
  have hdrop8 : blob.drop 8 = iv.flatMap put_u16 ++ (streams ++ crc4) := by
    rw [hblob_cons]; rfl
  have hfirsts : readU16s 10 (blob.drop 8) = iv := by
    rw [hdrop8, ← hivlen]
    exact readU16s_flatMap iv _ hivb
  have hdrop28 : blob.drop (8 + 2 * 10) = streams ++ crc4 := by
    rw [show (8 + 2 * 10 : Nat) = 28 from rfl, hblob_cons]
    show (iv.flatMap put_u16 ++ (streams ++ crc4)).drop 20 = streams ++ crc4
    rw [show (20 : Nat) = 2 * iv.length by rw [hivlen]]
    exact drop_flatMap_put_u16 iv _
  have hnrecon : n % 256 + 256 * (n / 256) = n := by omega
  have hcols : decodeFields iv (n - 1) (streams ++ crc4)
      = some ((List.range 10).map (fun f => iv.getD f 0 :: tails f), crc4) := by
    have hcond : ∀ pc ∈ (List.range 10).map (fun f => (iv.getD f 0, tails f)),
        pc.1 < 65536 ∧ (∀ v ∈ pc.2, v < 65536) ∧ pc.2.length = n - 1 := by
      intro pc hpc
      obtain ⟨f, hf, rfl⟩ := List.mem_map.mp hpc
      exact ⟨getD_lt_65536 iv hivb f, fun v hv => htv f v hv, htlen f⟩
    have h1 : ((List.range 10).map (fun f => (iv.getD f 0, tails f))).map
        Prod.fst = iv := by
      rw [List.map_map]
      rw [show (Prod.fst ∘ fun f => (iv.getD f 0, tails f))
          = fun f => iv.getD f 0 from rfl]
      conv_lhs => rw [show (10 : Nat) = iv.length by rw [hivlen]]
      exact map_getD_range iv 0
    have h2 : ((List.range 10).map (fun f => (iv.getD f 0, tails f))).flatMap
        (fun pc => encodeOps pc.1 0 pc.2) = streams := by
      rw [List.flatMap_map, hstreams]
    have h3 := decodeFields_encodeOps crc4 (by rw [hcrc4_len])
      ((List.range 10).map (fun f => (iv.getD f 0, tails f))) (n - 1) hcond
    rw [h1, h2] at h3
    rw [h3, List.map_map]
    rfl
  have hdroptail : blob.drop (blob.length - 4) = crc4 := by
    have h4 : blob.length - 4 = pre.length := by omega
    rw [h4, hblobdef, List.drop_left]
  have htaketail : blob.take (blob.length - 4) = pre := by
    have h4 : blob.length - 4 = pre.length := by omega
    rw [h4, hblobdef, List.take_left]
  have hcrceq : get_u32v (blob.drop (blob.length - 4))
      = crc32_ieee (blob.take (blob.length - 4)) := by
    rw [hdroptail, htaketail, hcrc4]
    exact get_u32v_put_u32 (crc32_ieee_lt pre)
  unfold decode_delta_rle_v1
  rw [if_neg hlen12, hg0]
  rw [if_neg (show ¬ (1 : Nat) ≠ 1 by norm_num)]
  rw [hg1, hg2, hg3]
  rw [if_neg hlen32]
  rw [hfirsts, hdrop28, hnrecon]
  rw [if_neg (show ¬ n = 0 by omega)]
  dsimp only
  rw [hcols]
  dsimp only
  rw [if_neg (by rw [hcrceq]; simp)]

end codec




namespace security

theorem startsWithL_append_self (pat rest : List Char) :
    startsWithL pat (pat ++ rest) = true := by
  induction pat with
  | nil => simp [startsWithL]
  | cons a as ih => simp [startsWithL, ih]

theorem findIdx_of_startsWith (pat l : List Char) (h : startsWithL pat l = true) :
    findIdx pat l = some 0 := by
  cases l <;> simp [findIdx, h]

theorem findIdx_append_self (pat rest : List Char) :
    findIdx pat (pat ++ rest) = some 0 :=
  findIdx_of_startsWith _ _ (startsWithL_append_self pat rest)

theorem findIdx_cons_of_false (pat : List Char) (c : Char) (cs : List Char)
    (h : startsWithL pat (c :: cs) = false) :
    findIdx pat (c :: cs) = (findIdx pat cs).map (fun k => k + 1) := by
  simp [findIdx, h]

theorem startsWithL_eq_false_of_failsOn (pat l rest : List Char)
    (h : failsOn pat l = true) : startsWithL pat (l ++ rest) = false := by
  induction pat generalizing l with
  | nil => simp [failsOn] at h
  | cons a as ih =>
    cases l with
    | nil => simp [failsOn] at h
    | cons b bs =>
      simp only [failsOn, Bool.or_eq_true, bne_iff_ne, ne_eq] at h
      rcases h with h | h
      · simp [startsWithL, h]
      · simp [startsWithL, ih bs h]

theorem findIdx_skip_block (pat l1 rest : List Char)
    (h : ∀ j, j < l1.length → failsOn pat (l1.drop j) = true) :
    findIdx pat (l1 ++ rest) = (findIdx pat rest).map (fun k => k + l1.length) := by
  induction l1 with
  | nil =>
    cases h0 : findIdx pat rest <;> simp [h0]
  | cons c cs ih =>
    have h0 : startsWithL pat ((c :: cs) ++ rest) = false :=
      startsWithL_eq_false_of_failsOn pat (c :: cs) rest (h 0 (by simp))
    rw [List.cons_append, findIdx_cons_of_false pat c (cs ++ rest) h0,
        ih (fun j hj => h (j + 1) (by simpa using hj))]
    cases h1 : findIdx pat rest <;> simp [h1, Nat.add_assoc]

theorem findIdx_skip_run (a : Char) (as run rest : List Char)
    (h : ∀ c ∈ run, (a == c) = false) :
    findIdx (a :: as) (run ++ rest) =
      (findIdx (a :: as) rest).map (fun k => k + run.length) := by
  induction run with
  | nil => cases h0 : findIdx (a :: as) rest <;> simp [h0]
  | cons c cs ih =>
    have h0 : startsWithL (a :: as) ((c :: cs) ++ rest) = false := by
      simp [startsWithL, h c (by simp)]
    rw [List.cons_append, findIdx_cons_of_false (a :: as) c (cs ++ rest) h0,
        ih (fun x hx => h x (by simp [hx]))]
    cases h1 : findIdx (a :: as) rest <;> simp [h1, Nat.add_assoc]

theorem countWhile_zero (p : Char → Bool) (c : Char) (l : List Char)
    (h : p c = false) : countWhile p (c :: l) = 0 := by
  simp [countWhile, h]

theorem countWhile_run (p : Char → Bool) (l : List Char) (c : Char) (rest : List Char)
    (hl : ∀ x ∈ l, p x = true) (hc : p c = false) :
    countWhile p (l ++ c :: rest) = l.length := by
  induction l with
  | nil => simp [countWhile, hc]
  | cons x xs ih =>
    have hx := hl x (by simp)
    simp [List.cons_append, countWhile, hx, ih (fun y hy => hl y (by simp [hy]))]

theorem quote_beq_eq_false_of_digit (c : Char) (h : isDigitC c = true) :
    (('\x22' : Char) == c) = false := by
  simp only [isDigitC, Bool.and_eq_true, decide_eq_true_eq] at h
  simp only [beq_eq_false_iff_ne, ne_eq]
  intro he
  rw [← he] at h
  simp at h

end security

namespace security

theorem strFind_env_nonce_key (D P M : List Char) :
    strFind (mkEnvelope D P M) ['\x22','n','o','n','c','e','\x22'] 0 = some 1 := by
  have hsplit : mkEnvelope D P M =
      ['\x7b'] ++ (['\x22','n','o','n','c','e','\x22'] ++
        (':' :: (D ++ envTailPayload P M))) := rfl
  simp only [strFind, List.drop_zero]
  rw [hsplit, findIdx_skip_block ['\x22','n','o','n','c','e','\x22'] ['\x7b'] _ (by decide),
      findIdx_append_self]
  simp

theorem strFind_env_colon1 (D P M : List Char) :
    strFind (mkEnvelope D P M) [':'] 1 = some 8 := by
  have hdrop : (mkEnvelope D P M).drop 1 =
      ['\x22','n','o','n','c','e','\x22'] ++ (':' :: (D ++ envTailPayload P M)) := rfl
  simp only [strFind]
  rw [hdrop, findIdx_skip_block [':'] ['\x22','n','o','n','c','e','\x22'] _ (by decide),
      show (':' :: (D ++ envTailPayload P M)) = [':'] ++ (D ++ envTailPayload P M) from rfl,
      findIdx_append_self]
  simp


theorem quote_run_beq (D : List Char) (hD : ∀ c ∈ D, isDigitC c = true) :
    ∀ c ∈ D, (('\x22' : Char) == c) = false :=
  fun c hc => quote_beq_eq_false_of_digit c (hD c hc)

theorem strFind_env_payload_key (D P M : List Char)
    (hD : ∀ c ∈ D, isDigitC c = true) :
    strFind (mkEnvelope D P M) ['\x22','p','a','y','l','o','a','d','\x22'] 0 =
      some (10 + D.length) := by
  have hsplit : mkEnvelope D P M =
      ['\x7b','\x22','n','o','n','c','e','\x22',':'] ++
        (D ++ ([','] ++ (['\x22','p','a','y','l','o','a','d','\x22'] ++
          (':' :: '\x22' :: (P ++ envTailMac M))))) := rfl
  simp only [strFind, List.drop_zero]
  rw [hsplit,
      findIdx_skip_block ['\x22','p','a','y','l','o','a','d','\x22']
        ['\x7b','\x22','n','o','n','c','e','\x22',':'] _ (by decide),
      findIdx_skip_run '\x22' ['p','a','y','l','o','a','d','\x22'] D _
        (quote_run_beq D hD),
      findIdx_skip_block ['\x22','p','a','y','l','o','a','d','\x22'] [','] _ (by decide),
      findIdx_append_self]
  simp only [Option.map_some', Option.some.injEq, List.length_cons, List.length_nil]
  omega

theorem env_drop_10 (D P M : List Char) :
    (mkEnvelope D P M).drop (10 + D.length) =
      ['\x22','p','a','y','l','o','a','d','\x22'] ++
        (':' :: '\x22' :: (P ++ envTailMac M)) := by
  have hsplit : mkEnvelope D P M =
      ((['\x7b','\x22','n','o','n','c','e','\x22',':'] ++ D) ++ [',']) ++
        (['\x22','p','a','y','l','o','a','d','\x22'] ++
          (':' :: '\x22' :: (P ++ envTailMac M))) := by
    simp [mkEnvelope, envTailPayload, envTailMac]
  rw [hsplit,
      show (10 + D.length) =
        ((['\x7b','\x22','n','o','n','c','e','\x22',':'] ++ D) ++ [',']).length from by
          simp; omega,
      List.drop_left]

theorem strFind_env_colon2 (D P M : List Char) :
    strFind (mkEnvelope D P M) [':'] (10 + D.length) = some (19 + D.length) := by
  simp only [strFind]
  rw [env_drop_10,
      findIdx_skip_block [':'] ['\x22','p','a','y','l','o','a','d','\x22'] _ (by decide),
      show (':' :: '\x22' :: (P ++ envTailMac M)) =
        [':'] ++ ('\x22' :: (P ++ envTailMac M)) from rfl,
      findIdx_append_self]
  simp only [Option.map_some', Option.some.injEq, List.length_cons, List.length_nil]
  omega

theorem env_drop_19 (D P M : List Char) :
    (mkEnvelope D P M).drop (19 + D.length) =
      ':' :: '\x22' :: (P ++ envTailMac M) := by
  have hsplit : mkEnvelope D P M =
      (((['\x7b','\x22','n','o','n','c','e','\x22',':'] ++ D) ++ [',']) ++
        ['\x22','p','a','y','l','o','a','d','\x22']) ++
          (':' :: '\x22' :: (P ++ envTailMac M)) := by
    simp [mkEnvelope, envTailPayload, envTailMac]
  rw [hsplit,
      show (19 + D.length) =
        ((((['\x7b','\x22','n','o','n','c','e','\x22',':'] ++ D) ++ [',']) ++
          ['\x22','p','a','y','l','o','a','d','\x22'])).length from by simp; omega,
      List.drop_left]

theorem strFind_env_quote1 (D P M : List Char) :
    strFind (mkEnvelope D P M) ['\x22'] (19 + D.length) = some (20 + D.length) := by
  simp only [strFind]
  rw [env_drop_19,
      show (':' :: '\x22' :: (P ++ envTailMac M)) =
        [':'] ++ ('\x22' :: (P ++ envTailMac M)) from rfl,
      findIdx_skip_block ['\x22'] [':'] _ (by decide),
      show ('\x22' :: (P ++ envTailMac M)) = ['\x22'] ++ (P ++ envTailMac M) from rfl,
      findIdx_append_self]
  simp only [Option.map_some', Option.some.injEq, List.length_cons, List.length_nil]
  omega

theorem env_drop_21 (D P M : List Char) :
    (mkEnvelope D P M).drop (20 + D.length + 1) = P ++ envTailMac M := by
  have hsplit : mkEnvelope D P M =
      ((((['\x7b','\x22','n','o','n','c','e','\x22',':'] ++ D) ++ [',']) ++
        ['\x22','p','a','y','l','o','a','d','\x22']) ++ [':', '\x22']) ++
          (P ++ envTailMac M) := by
    simp [mkEnvelope, envTailPayload, envTailMac]
  rw [hsplit,
      show (20 + D.length + 1) =
        (((((['\x7b','\x22','n','o','n','c','e','\x22',':'] ++ D) ++ [',']) ++
          ['\x22','p','a','y','l','o','a','d','\x22']) ++ [':', '\x22'])).length from by
            simp; omega,
      List.drop_left]

theorem strFind_env_quote2 (D P M : List Char)
    (hP : ∀ c ∈ P, (('\x22' : Char) == c) = false) :
    strFind (mkEnvelope D P M) ['\x22'] (20 + D.length + 1) =
      some (21 + D.length + P.length) := by
  simp only [strFind]
  rw [env_drop_21,
      findIdx_skip_run '\x22' [] P _ hP,
      show (envTailMac M) = ['\x22'] ++
        (',' :: '\x22' :: 'm' :: 'a' :: 'c' :: '\x22' :: ':' :: '\x22' ::
          (M ++ '\x22' :: '\x7d' :: [])) from rfl,
      findIdx_append_self]
  simp only [Option.map_some', Option.some.injEq, List.length_cons, List.length_nil]
  omega


theorem startsWith_macKey_false (P rest : List Char)
    (hP : ∀ c ∈ P, (('\x22' : Char) == c) = false) (hne : P ≠ ['m','a','c']) :
    startsWithL ['m','a','c','\x22'] (P ++ '\x22' :: rest) = false := by
  rcases P with _ | ⟨a, _ | ⟨b, _ | ⟨c, _ | ⟨d, t⟩⟩⟩⟩
  · simp [startsWithL, show (('m' : Char) == '\x22') = false from by decide]
  · simp [startsWithL, show (('a' : Char) == '\x22') = false from by decide]
  · simp [startsWithL, show (('c' : Char) == '\x22') = false from by decide]
  · by_contra hcon
    have htrue : startsWithL ['m','a','c','\x22'] (([a, b, c] : List Char) ++ '\x22' :: rest) = true := by
      cases hX : startsWithL ['m','a','c','\x22'] (([a, b, c] : List Char) ++ '\x22' :: rest) with
      | false => exact absurd hX hcon
      | true => rfl
    simp only [List.cons_append, List.nil_append, startsWithL, Bool.and_eq_true,
      beq_iff_eq] at htrue
    obtain ⟨h1, h2, h3, _⟩ := htrue
    subst h1; subst h2; subst h3
    exact hne rfl
  · have hd : (('\x22' : Char) == d) = false := hP d (by simp)
    simp only [List.cons_append, startsWithL]
    simp [hd]

theorem strFind_env_mac_key (D P M : List Char)
    (hD : ∀ c ∈ D, isDigitC c = true)
    (hP : ∀ c ∈ P, (('\x22' : Char) == c) = false) (hne : P ≠ ['m','a','c']) :
    strFind (mkEnvelope D P M) ['\x22','m','a','c','\x22'] 0 =
      some (23 + D.length + P.length) := by
  have hsplit : mkEnvelope D P M =
      ['\x7b','\x22','n','o','n','c','e','\x22',':'] ++
        (D ++ ([',','\x22','p','a','y','l','o','a','d','\x22',':'] ++
          ('\x22' :: (P ++ (['\x22',','] ++ (['\x22','m','a','c','\x22'] ++
            (':' :: '\x22' :: (M ++ '\x22' :: '\x7d' :: [])))))))) := rfl
  have hsw : startsWithL ['\x22','m','a','c','\x22']
      ('\x22' :: (P ++ (['\x22',','] ++ (['\x22','m','a','c','\x22'] ++
        (':' :: '\x22' :: (M ++ '\x22' :: '\x7d' :: [])))))) = false := by
    simp only [startsWithL, show (('\x22' : Char) == '\x22') = true from by decide,
      Bool.true_and]
    exact startsWith_macKey_false P
      (',' :: (['\x22','m','a','c','\x22'] ++
        (':' :: '\x22' :: (M ++ '\x22' :: '\x7d' :: [])))) hP hne
  simp only [strFind, List.drop_zero]
  rw [hsplit,
      findIdx_skip_block ['\x22','m','a','c','\x22']
        ['\x7b','\x22','n','o','n','c','e','\x22',':'] _ (by decide),
      findIdx_skip_run '\x22' ['m','a','c','\x22'] D _ (quote_run_beq D hD),
      findIdx_skip_block ['\x22','m','a','c','\x22']
        [',','\x22','p','a','y','l','o','a','d','\x22',':'] _ (by decide),
      findIdx_cons_of_false ['\x22','m','a','c','\x22'] '\x22' _ hsw,
      findIdx_skip_run '\x22' ['m','a','c','\x22'] P _ hP,
      findIdx_skip_block ['\x22','m','a','c','\x22'] ['\x22',','] _ (by decide),
      findIdx_append_self]
  simp only [Option.map_some', Option.some.injEq, List.length_cons, List.length_nil]
  omega

theorem env_drop_23 (D P M : List Char) :
    (mkEnvelope D P M).drop (23 + D.length + P.length) =
      ['\x22','m','a','c','\x22'] ++ (':' :: '\x22' :: (M ++ '\x22' :: '\x7d' :: [])) := by
  have hsplit : mkEnvelope D P M =
      (((((['\x7b','\x22','n','o','n','c','e','\x22',':'] ++ D) ++
        [',','\x22','p','a','y','l','o','a','d','\x22',':','\x22']) ++ P) ++
          ['\x22',',']) : List Char) ++
        (['\x22','m','a','c','\x22'] ++ (':' :: '\x22' :: (M ++ '\x22' :: '\x7d' :: []))) := by
    simp [mkEnvelope, envTailPayload, envTailMac]
  rw [hsplit,
      show (23 + D.length + P.length) =
        ((((['\x7b','\x22','n','o','n','c','e','\x22',':'] ++ D) ++
          [',','\x22','p','a','y','l','o','a','d','\x22',':','\x22']) ++ P) ++
            ['\x22',',']).length from by simp; omega,
      List.drop_left]

theorem strFind_env_colon3 (D P M : List Char) :
    strFind (mkEnvelope D P M) [':'] (23 + D.length + P.length) =
      some (28 + D.length + P.length) := by
  simp only [strFind]
  rw [env_drop_23,
      findIdx_skip_block [':'] ['\x22','m','a','c','\x22'] _ (by decide),
      show (':' :: '\x22' :: (M ++ '\x22' :: '\x7d' :: [])) =
        [':'] ++ ('\x22' :: (M ++ '\x22' :: '\x7d' :: [])) from rfl,
      findIdx_append_self]
  simp only [Option.map_some', Option.some.injEq, List.length_cons, List.length_nil]
  omega

theorem env_drop_28 (D P M : List Char) :
    (mkEnvelope D P M).drop (28 + D.length + P.length) =
      ':' :: '\x22' :: (M ++ '\x22' :: '\x7d' :: []) := by
  have hsplit : mkEnvelope D P M =
      ((((((['\x7b','\x22','n','o','n','c','e','\x22',':'] ++ D) ++
        [',','\x22','p','a','y','l','o','a','d','\x22',':','\x22']) ++ P) ++
          ['\x22',',']) ++ ['\x22','m','a','c','\x22']) : List Char) ++
        (':' :: '\x22' :: (M ++ '\x22' :: '\x7d' :: [])) := by
    simp [mkEnvelope, envTailPayload, envTailMac]
  rw [hsplit,
      show (28 + D.length + P.length) =
        (((((['\x7b','\x22','n','o','n','c','e','\x22',':'] ++ D) ++
          [',','\x22','p','a','y','l','o','a','d','\x22',':','\x22']) ++ P) ++
            ['\x22',',']) ++ ['\x22','m','a','c','\x22']).length from by simp; omega,
      List.drop_left]

theorem strFind_env_quote3 (D P M : List Char) :
    strFind (mkEnvelope D P M) ['\x22'] (28 + D.length + P.length) =
      some (29 + D.length + P.length) := by
  simp only [strFind]
  rw [env_drop_28,
      show (':' :: '\x22' :: (M ++ '\x22' :: '\x7d' :: [])) =
        [':'] ++ ('\x22' :: (M ++ '\x22' :: '\x7d' :: [])) from rfl,
      findIdx_skip_block ['\x22'] [':'] _ (by decide),
      show ('\x22' :: (M ++ '\x22' :: '\x7d' :: [])) =
        ['\x22'] ++ (M ++ '\x22' :: '\x7d' :: []) from rfl,
      findIdx_append_self]
  simp only [Option.map_some', Option.some.injEq, List.length_cons, List.length_nil]
  omega

theorem env_drop_30 (D P M : List Char) :
    (mkEnvelope D P M).drop (29 + D.length + P.length + 1) =
      M ++ '\x22' :: '\x7d' :: [] := by
  have hsplit : mkEnvelope D P M =
      (((((((['\x7b','\x22','n','o','n','c','e','\x22',':'] ++ D) ++
        [',','\x22','p','a','y','l','o','a','d','\x22',':','\x22']) ++ P) ++
          ['\x22',',']) ++ ['\x22','m','a','c','\x22']) ++ [':','\x22']) : List Char) ++
        (M ++ '\x22' :: '\x7d' :: []) := by
    simp [mkEnvelope, envTailPayload, envTailMac]
  rw [hsplit,
      show (29 + D.length + P.length + 1) =
        ((((((['\x7b','\x22','n','o','n','c','e','\x22',':'] ++ D) ++
          [',','\x22','p','a','y','l','o','a','d','\x22',':','\x22']) ++ P) ++
            ['\x22',',']) ++ ['\x22','m','a','c','\x22']) ++ [':','\x22']).length from by
              simp; omega,
      List.drop_left]

theorem strFind_env_quote4 (D P M : List Char)
    (hM : ∀ c ∈ M, (('\x22' : Char) == c) = false) :
    strFind (mkEnvelope D P M) ['\x22'] (29 + D.length + P.length + 1) =
      some (29 + D.length + P.length + 1 + M.length) := by
  simp only [strFind]
  rw [env_drop_30,
      findIdx_skip_run '\x22' [] M _ hM,
      show ('\x22' :: '\x7d' :: ([] : List Char)) = ['\x22'] ++ ['\x7d'] from rfl,
      findIdx_append_self]
  simp only [Option.map_some', Option.some.injEq, List.length_cons, List.length_nil]
  omega


theorem parseDec_append_digit (l : List Char) (c : Char) :
    parseDec (l ++ [c]) = 10 * parseDec l + (c.toNat - 48) := by
  simp [parseDec, List.foldl_append]

theorem digitChar_facts : ∀ d, d < 10 →
    (digitChar d).toNat = 48 + d ∧ isDigitC (digitChar d) = true := by decide

theorem natDigitsAux_spec : ∀ fuel n, n < 10 ^ (fuel + 1) →
    natDigitsAux (fuel + 1) n ≠ [] ∧
    (∀ c ∈ natDigitsAux (fuel + 1) n, isDigitC c = true) ∧
    parseDec (natDigitsAux (fuel + 1) n) = n := by
  intro fuel
  induction fuel with
  | zero =>
    intro n hn
    have hn10 : n < 10 := by simpa using hn
    have hd := digitChar_facts n hn10
    refine ⟨by simp [natDigitsAux, hn10], ?_, ?_⟩
    · intro c hc
      simp [natDigitsAux, hn10] at hc
      rw [hc]
      exact hd.2
    · simp [natDigitsAux, hn10, parseDec, hd.1]
  | succ f ih =>
    intro n hn
    by_cases h10 : n < 10
    · have hd := digitChar_facts n h10
      refine ⟨by simp [natDigitsAux, h10], ?_, ?_⟩
      · intro c hc
        simp [natDigitsAux, h10] at hc
        rw [hc]
        exact hd.2
      · simp [natDigitsAux, h10, parseDec, hd.1]
    · have hdiv : n / 10 < 10 ^ (f + 1) := by
        rw [Nat.div_lt_iff_lt_mul (by norm_num)]
        calc n < 10 ^ (f + 1 + 1) := hn
        _ = 10 ^ (f + 1) * 10 := by ring
      obtain ⟨hne, hdig, hparse⟩ := ih (n / 10) hdiv
      have hmod : n % 10 < 10 := Nat.mod_lt _ (by norm_num)
      have hd := digitChar_facts (n % 10) hmod
      have heq : natDigitsAux (f + 1 + 1) n =
          natDigitsAux (f + 1) (n / 10) ++ [digitChar (n % 10)] := by
        simp [natDigitsAux, h10]
      refine ⟨by simp [heq, hne], ?_, ?_⟩
      · intro c hc
        rw [heq] at hc
        rcases List.mem_append.mp hc with hc | hc
        · exact hdig c hc
        · simp at hc
          rw [hc]
          exact hd.2
      · rw [heq, parseDec_append_digit, hparse, hd.1]
        omega

theorem natDigits_spec (n : Nat) :
    natDigits n ≠ [] ∧ (∀ c ∈ natDigits n, isDigitC c = true) ∧
    parseDec (natDigits n) = n := by
  have h : n < 10 ^ (n + 1) := by
    calc n < 10 ^ n := Nat.lt_pow_self (by norm_num) n
    _ ≤ 10 ^ (n + 1) := Nat.pow_le_pow_right (by norm_num) (Nat.le_succ n)
  exact natDigitsAux_spec n n h

theorem isSpaceC_of_digit_false (c : Char) (h : isDigitC c = true) :
    isSpaceC c = false := by
  simp only [isDigitC, Bool.and_eq_true, decide_eq_true_eq] at h
  simp only [isSpaceC, Bool.or_eq_false_iff, Bool.and_eq_false_iff,
    beq_eq_false_iff_ne, ne_eq, decide_eq_false_iff_not]
  omega

theorem json_nonce_of_env (D P M : List Char)
    (hD : ∀ c ∈ D, isDigitC c = true) (hne : D ≠ []) :
    json_get_u64 (mkEnvelope D P M) ['n','o','n','c','e'] = some (parseDec D) := by
  have h1 := strFind_env_nonce_key D P M
  have h2 := strFind_env_colon1 D P M
  simp only [json_get_u64]
  rw [show (('\x22' :: ['n','o','n','c','e']) ++ ['\x22'] : List Char) =
        ['\x22','n','o','n','c','e','\x22'] from rfl]
  rw [h1]
  dsimp only
  rw [h2]
  dsimp only
  have hdrop9 : (mkEnvelope D P M).drop (8 + 1) = D ++ envTailPayload P M := rfl
  rw [hdrop9]
  obtain ⟨c, D', rfl⟩ := List.exists_cons_of_ne_nil hne
  have hs0 : countWhile isSpaceC ((c :: D') ++ envTailPayload P M) = 0 :=
    countWhile_zero _ _ _ (isSpaceC_of_digit_false c (hD c (by simp)))
  rw [hs0]
  have hdrop90 : (mkEnvelope (c :: D') P M).drop (8 + 1 + 0) =
      (c :: D') ++ envTailPayload P M := rfl
  rw [hdrop90]
  have hdl : countWhile isDigitC ((c :: D') ++ envTailPayload P M) = (c :: D').length := by
    rw [show ((c :: D') ++ envTailPayload P M) =
          ((c :: D') ++ ',' :: ('\x22' :: 'p' :: 'a' :: 'y' :: 'l' :: 'o' :: 'a' :: 'd'
            :: '\x22' :: ':' :: '\x22' :: (P ++ envTailMac M))) from rfl]
    exact countWhile_run isDigitC (c :: D') ',' _ hD (by decide)
  rw [hdl, if_neg (by simp), List.take_left]

theorem json_payload_of_env (D P M : List Char)
    (hD : ∀ c ∈ D, isDigitC c = true)
    (hP : ∀ c ∈ P, (('\x22' : Char) == c) = false) :
    json_get_str (mkEnvelope D P M) ['p','a','y','l','o','a','d'] = P := by
  have h1 := strFind_env_payload_key D P M hD
  have h2 := strFind_env_colon2 D P M
  have h3 := strFind_env_quote1 D P M
  have h4 := strFind_env_quote2 D P M hP
  simp only [json_get_str]
  rw [show (('\x22' :: ['p','a','y','l','o','a','d']) ++ ['\x22'] : List Char) =
        ['\x22','p','a','y','l','o','a','d','\x22'] from rfl]
  rw [h1]
  dsimp only
  rw [h2]
  dsimp only
  rw [h3]
  dsimp only
  rw [h4, env_drop_21]
  dsimp only
  rw [show (21 + D.length + P.length - (20 + D.length + 1)) = P.length from by omega,
      List.take_left]

theorem json_mac_of_env (D P M : List Char)
    (hD : ∀ c ∈ D, isDigitC c = true)
    (hP : ∀ c ∈ P, (('\x22' : Char) == c) = false) (hne : P ≠ ['m','a','c'])
    (hM : ∀ c ∈ M, (('\x22' : Char) == c) = false) :
    json_get_str (mkEnvelope D P M) ['m','a','c'] = M := by
  have h1 := strFind_env_mac_key D P M hD hP hne
  have h2 := strFind_env_colon3 D P M
  have h3 := strFind_env_quote3 D P M
  have h4 := strFind_env_quote4 D P M hM
  simp only [json_get_str]
  rw [show (('\x22' :: ['m','a','c']) ++ ['\x22'] : List Char) =
        ['\x22','m','a','c','\x22'] from rfl]
  rw [h1]
  dsimp only
  rw [h2]
  dsimp only
  rw [h3]
  dsimp only
  rw [h4, env_drop_30]
  dsimp only
  rw [show (29 + D.length + P.length + 1 + M.length - (29 + D.length + P.length + 1)) =
        M.length from by omega,
      List.take_left]


theorem unwrap_mkEnvelope (hmac : List Char → List Char → List Char)
    (psk D P M : List Char) (last : Nat) (flag : Bool)
    (hD : ∀ c ∈ D, isDigitC c = true) (hDne : D ≠ [])
    (hP : ∀ c ∈ P, (('\x22' : Char) == c) = false) (hPne : P ≠ [])
    (hPm : P ≠ ['m','a','c'])
    (hM : ∀ c ∈ M, (('\x22' : Char) == c) = false) (hMne : M ≠ []) :
    unwrap_and_verify_envelope hmac (mkEnvelope D P M) psk last flag =
      if eq_ci_hex (hmac psk (natDigits (parseDec D) ++ '.' :: P)) M = false then
        (none, last)
      else if parseDec D ≤ last then (none, last)
      else if flag then
        (if b64_decode P = [] then (none, parseDec D)
         else (some (b64_decode P), parseDec D))
      else (some P, parseDec D) := by
  simp only [unwrap_and_verify_envelope]
  rw [json_nonce_of_env D P M hD hDne]
  dsimp only
  rw [json_payload_of_env D P M hD hP, json_mac_of_env D P M hD hP hPm hM]
  rw [if_neg (by simp [hPne, hMne])]

end security


/-- C1: pushing `k` records `p₁..pₖ` into a fresh ring of capacity `C > 0`:
a subsequent `snapshot_and_clear` returns exactly the last `min(k, C)`
pushed records in production order (`ps.drop (k − C)`), the `i`-th push
returns `true` exactly when it was made while the ring was full (`C ≤ i`),
`get_and_clear_dropped` returns `k − C` (that is, `max(0, k − C)`), and a
second call returns `0`. -/
theorem C1_ring_push_snapshot_dropped (C : Nat) (ps : List buffer.Record)
    (hC : 0 < C) :
    (buffer.pushAll (buffer.Ring.mk0 C) ps).2.snapshot_and_clear.1 =
        ps.drop (ps.length - C) ∧
    (buffer.pushAll (buffer.Ring.mk0 C) ps).2.snapshot_and_clear.1.length =
        min ps.length C ∧
    (buffer.pushAll (buffer.Ring.mk0 C) ps).1 =
        (List.range ps.length).map (fun i => decide (C ≤ i)) ∧
    (buffer.pushAll (buffer.Ring.mk0 C) ps).2.get_and_clear_dropped.1 =
        ps.length - C ∧
    (buffer.pushAll (buffer.Ring.mk0 C) ps).2.get_and_clear_dropped.2.get_and_clear_dropped.1 = 0 := by
  have hinv : buffer.Inv (buffer.Ring.mk0 C) := by
    refine ⟨hC, by simp [buffer.Ring.mk0], by simp [buffer.Ring.mk0], by simp [buffer.Ring.mk0, hC]⟩
  obtain ⟨hinv', hcap, hflags, hcnt, hdrop, hlive⟩ :=
    buffer.pushAll_spec ps (buffer.Ring.mk0 C) hinv
  have hmk : (buffer.Ring.mk0 C).live = [] := by
    simp [buffer.Ring.live, buffer.Ring.mk0]
  have hc0 : (buffer.Ring.mk0 C).count = 0 := rfl
  have hcC : (buffer.Ring.mk0 C).cap = C := rfl
  have hd0 : (buffer.Ring.mk0 C).dropped = 0 := rfl
  simp only [hc0, hcC, hd0, hmk, Nat.zero_add, List.nil_append]
    at hflags hcnt hdrop hlive
  have hsnap : (buffer.pushAll (buffer.Ring.mk0 C) ps).2.snapshot_and_clear.1 =
      (buffer.pushAll (buffer.Ring.mk0 C) ps).2.live := rfl
  have hgac : (buffer.pushAll (buffer.Ring.mk0 C) ps).2.get_and_clear_dropped.1 =
      (buffer.pushAll (buffer.Ring.mk0 C) ps).2.dropped := rfl
  refine ⟨?_, ?_, ?_, ?_, ?_⟩
  · rw [hsnap, hlive]
  · rw [hsnap, buffer.live_length, hcnt]
  · rw [hflags]
  · rw [hgac, hdrop]
  · rfl

/-- Witness for C1 at the spec's S4 scenario: capacity 3, four pushes
`A, B, C, D`; the snapshot is `[B, C, D]`, only the fourth push reports an
overflow, the dropped counter reads 1 and then 0. -/
theorem C1_ring_push_snapshot_dropped_witness :
    (0 : Nat) < 3 ∧
    ((buffer.pushAll (buffer.Ring.mk0 3)
        [⟨1, default⟩, ⟨2, default⟩, ⟨3, default⟩, ⟨4, default⟩]).2.snapshot_and_clear.1 =
      ([⟨1, default⟩, ⟨2, default⟩, ⟨3, default⟩, ⟨4, default⟩] :
        List buffer.Record).drop (4 - 3)) := by
  exact ⟨by decide,
    (C1_ring_push_snapshot_dropped 3
      [⟨1, default⟩, ⟨2, default⟩, ⟨3, default⟩, ⟨4, default⟩] (by decide)).1⟩



/-- C8: the claim states that `make_read_holding(0x11, 0x0000, 10)` yields the
bytes `11 03 00 00 00 0A C6 9E` and `make_write_single(0x11, 8, 10)` the bytes
`11 06 00 08 00 0A 0A 53`.  Both CRC values are wrong for the code's CRC-16
(poly `0xA001`, init `0xFFFF`): the claim is false at exactly the inputs it
names. -/
theorem C8_frames_counterexample :
    ¬ (modbus.make_read_holding 0x11 0x0000 10 = "11030000000AC69E" ∧
       modbus.make_write_single 0x11 8 10 = "11060008000A0A53") := by
  decide

/-- C8 (amended): `make_read_holding(0x11, 0x0000, 10)` produces exactly the
hex frame `11 03 00 00 00 0A C7 5D` (CRC-16 `0x5DC7` serialized little-endian)
and `make_write_single(0x11, 8, 10)` produces exactly the bytes
`11 06 00 08 00 0A 8A 9F` (CRC-16 `0x9F8A` little-endian). -/
theorem C8_frames_amended :
    modbus.make_read_holding 0x11 0x0000 10 = "11030000000AC75D" ∧
    modbus.make_write_single 0x11 8 10 = "11060008000A8A9F" := by
  decide

/-- C7: in the `config_update` handling, a `registers` list containing any
unknown field name is rejected as a whole (`registers` lands in `rejected`)
and the staged field set — hence the current set after promotion at the next
window boundary — is exactly the untouched current set; when all names are
known, the mapped set is deduplicated and sorted by field id (strictly
increasing), and a list that is a permutation of the current set (identical
order-insensitively) is reported `unchanged` with the current set kept. -/
theorem C7_config_registers_decision (regs_in : List String) (cur : List Nat) :
    (∀ n, n ∈ regs_in → control.mapFieldName n = none →
      control.regsDecision regs_in cur = (control.RegsOutcome.rejectedKey, cur)) ∧
    (∀ fids, control.map_field_names regs_in = some fids →
      List.Chain' (· < ·) fids ∧
      (cur.Perm fids →
        control.regsDecision regs_in cur =
          (control.RegsOutcome.unchangedKey, cur))) := by
  constructor
  · intro n hn hmap
    have hne : regs_in ≠ [] := List.ne_nil_of_mem hn
    have hnone : control.mapAllNames regs_in = none :=
      control.mapAllNames_eq_none hn hmap
    have hmf : control.map_field_names regs_in = none := by
      unfold control.map_field_names
      rw [hnone]
    simp [control.regsDecision, hne, hmf]
  · intro fids hsome
    obtain ⟨vals, hvals, hvne, hfids⟩ := control.map_field_names_eq_some hsome
    have hchain : List.Chain' (· < ·) fids := by
      rw [hfids]
      exact control.chain'_lt_dedupAdj _ (List.sorted_insertionSort _ vals)
    refine ⟨hchain, ?_⟩
    intro hperm
    have hne : regs_in ≠ [] := by
      intro hcontra
      subst hcontra
      simp [control.map_field_names, control.mapAllNames] at hsome
    have hsort_eq : List.insertionSort (· ≤ ·) cur =
        List.insertionSort (· ≤ ·) fids := by
      have hs1 : (List.insertionSort (· ≤ ·) cur).Sorted (· ≤ ·) :=
        List.sorted_insertionSort _ cur
      have hs2 : (List.insertionSort (· ≤ ·) fids).Sorted (· ≤ ·) :=
        List.sorted_insertionSort _ fids
      have hp : (List.insertionSort (· ≤ ·) cur).Perm
          (List.insertionSort (· ≤ ·) fids) :=
        ((List.perm_insertionSort _ cur).trans hperm).trans
          (List.perm_insertionSort _ fids).symm
      exact List.eq_of_perm_of_sorted hp hs1 hs2
    simp [control.regsDecision, hne, hsome, hsort_eq]

/-- Witness for C7: `["voltage", "bogus"]` (unknown name `"bogus"`) against
the current set `[0]` is rejected keeping `[0]`; `["temp", "FREQUENCY"]`
maps to the sorted deduplicated set `[2, 7]`, and against the current set
`[7, 2]` (the same set in another order) it is reported unchanged. -/
theorem C7_config_registers_decision_witness :
    control.regsDecision ["voltage", "bogus"] [0] =
      (control.RegsOutcome.rejectedKey, [0]) ∧
    List.Chain' (· < ·) ([2, 7] : List Nat) ∧
    control.regsDecision ["temp", "FREQUENCY"] [7, 2] =
      (control.RegsOutcome.unchangedKey, [7, 2]) := by
  refine ⟨(C7_config_registers_decision ["voltage", "bogus"] [0]).1 "bogus"
            (by decide) (by decide),
          ((C7_config_registers_decision ["temp", "FREQUENCY"] [7, 2]).2 [2, 7]
            (by decide)).1,
          ((C7_config_registers_decision ["temp", "FREQUENCY"] [7, 2]).2 [2, 7]
            (by decide)).2 (by decide)⟩

namespace codec

/-- `getD` of the per-field column of a record list at an in-range index. -/
theorem getD_map_field (l : List buffer.Record) (f j : Nat)
    (hj : j < l.length) :
    (l.map (fun rec => (field_view rec.s).getD f 0)).getD j 0
      = (field_view (l.get ⟨j, hj⟩).s).getD f 0 := by
  rw [List.getD_eq_getElem _ _ (by simpa using hj), List.getElem_map]
  rfl

/-- Case analysis on the decoder: for a fixed blob it either fails leaving
the caller's vector untouched, or succeeds with a result independent of
the caller's vector. -/
theorem decode_false_or_true (blob : List Nat) :
    (∀ out, decode_delta_rle_v1 blob out = (false, out)) ∨
    (∃ samples, ∀ out, decode_delta_rle_v1 blob out = (true, samples)) := by
  by_cases h1 : blob.length < 12
  · left
    intro out
    unfold decode_delta_rle_v1
    rw [if_pos h1]
  by_cases h2 : blob.getD 0 0 ≠ 1
  · left
    intro out
    unfold decode_delta_rle_v1
    rw [if_neg h1, if_pos h2]
  by_cases h3 : blob.length < 8 + blob.getD 1 0 * 2 + 4
  · left
    intro out
    unfold decode_delta_rle_v1
    rw [if_neg h1, if_neg h2]
    try dsimp only
    rw [if_pos h3]
  cases hdf : decodeFields (readU16s (blob.getD 1 0) (blob.drop 8))
      (if blob.getD 2 0 + 256 * blob.getD 3 0 = 0 then 2 ^ 64 - 1
       else blob.getD 2 0 + 256 * blob.getD 3 0 - 1)
      (blob.drop (8 + 2 * blob.getD 1 0)) with
  | none =>
    left
    intro out
    unfold decode_delta_rle_v1
    rw [if_neg h1, if_neg h2]
    try dsimp only
    rw [if_neg h3]
    try dsimp only
    rw [hdf]
  | some pr =>
    obtain ⟨rows, rrem⟩ := pr
    by_cases hcrc : get_u32v (blob.drop (blob.length - 4)) ≠
        crc32_ieee (blob.take (blob.length - 4))
    · left
      intro out
      unfold decode_delta_rle_v1
      rw [if_neg h1, if_neg h2]
      try dsimp only
      rw [if_neg h3]
      try dsimp only
      rw [hdf]
      try dsimp only
      rw [if_pos hcrc]
    · right
      refine ⟨(List.range (blob.getD 2 0 + 256 * blob.getD 3 0)).map
          (fun i => sampleOfRows rows i), fun out => ?_⟩
      unfold decode_delta_rle_v1
      rw [if_neg h1, if_neg h2]
      try dsimp only
      rw [if_neg h3]
      try dsimp only
      rw [hdf]
      try dsimp only
      rw [if_neg hcrc]

end codec

/-- C2: as stated ("including the empty batch") the claim is false: the
encoder emits only header + CRC for an empty batch, and the decoder rejects
that 12-byte blob at its `blob.size() < off + nf*2 + 4` check (it expects a
first-value row), so the round-trip fails on the empty batch. -/
theorem C2_codec_roundtrip_counterexample :
    codec.decode_delta_rle_v1 (codec.encode_delta_rle_v1 []) []
      = (false, []) := by
  decide

/-- C2 (amended): for every nonempty batch of at most 65535 records (the
sample count is stored as a `uint16_t`), decoding the encoded blob succeeds
and reproduces exactly the same number of samples with identical values in
all ten fields — including batches with runs of equal values longer
than 255. -/
theorem C2_codec_roundtrip_amended (recs : List buffer.Record)
    (out0 : List acquisition.Sample)
    (hne : recs ≠ []) (hlen : recs.length < 65536)
    (hwf : ∀ rec ∈ recs, acquisition.SampleWF rec.s) :
    codec.decode_delta_rle_v1 (codec.encode_delta_rle_v1 recs) out0
      = (true, recs.map (fun rec => rec.s)) := by
  obtain ⟨r0, rtail, rfl⟩ := List.exists_cons_of_ne_nil hne
  have hivb : ∀ v ∈ codec.field_view r0.s, v < 65536 :=
    codec.field_view_lt r0.s (hwf r0 (by simp))
  have htv : ∀ f, ∀ v ∈ rtail.map
      (fun rec => (codec.field_view rec.s).getD f 0), v < 65536 := by
    intro f v hv
    obtain ⟨rec, hrec, rfl⟩ := List.mem_map.mp hv
    exact codec.getD_lt_65536 _
      (codec.field_view_lt rec.s (hwf rec (by simp [hrec]))) f
  have hmod : (r0 :: rtail).length % 65536 = (r0 :: rtail).length :=
    Nat.mod_eq_of_lt hlen
  have henc : codec.encode_delta_rle_v1 (r0 :: rtail)
      = ([1, 10, (r0 :: rtail).length % 256, (r0 :: rtail).length / 256,
          0, 0, 0, 0]
         ++ (codec.field_view r0.s).flatMap codec.put_u16
         ++ (List.range 10).flatMap (fun f =>
              codec.encodeOps ((codec.field_view r0.s).getD f 0) 0
                (rtail.map (fun rec => (codec.field_view rec.s).getD f 0))))
        ++ codec.put_u32 (codec.crc32_ieee
            ([1, 10, (r0 :: rtail).length % 256, (r0 :: rtail).length / 256,
              0, 0, 0, 0]
             ++ (codec.field_view r0.s).flatMap codec.put_u16
             ++ (List.range 10).flatMap (fun f =>
                  codec.encodeOps ((codec.field_view r0.s).getD f 0) 0
                    (rtail.map (fun rec =>
                      (codec.field_view rec.s).getD f 0))))) := by
    unfold codec.encode_delta_rle_v1
    rw [if_neg (by rw [hmod]; simp)]
    dsimp only
    rw [hmod, List.take_length]
    simp only [List.headD_cons, List.drop_one, List.tail_cons]
  rw [henc]
  rw [codec.decode_success (r0 :: rtail).length (by simp) hlen
      (codec.field_view r0.s) rfl hivb
      (fun f => rtail.map (fun rec => (codec.field_view rec.s).getD f 0))
      (by intro f; simp) htv out0]
  refine congrArg (fun l => ((true : Bool), l)) ?_
  apply List.ext_getElem
  · simp
  · intro i h1 h2
    simp only [List.getElem_map, List.getElem_range]
    have hrow : ∀ f, f < 10 →
        ((List.range 10).map (fun f => (codec.field_view r0.s).getD f 0
          :: rtail.map (fun rec => (codec.field_view rec.s).getD f 0))).getD
            f []
        = (codec.field_view r0.s).getD f 0
          :: rtail.map (fun rec => (codec.field_view rec.s).getD f 0) := by
      intro f hf
      rw [List.getD_eq_getElem _ _ (by simpa using hf), List.getElem_map,
          List.getElem_range]
    unfold codec.sampleOfRows
    rw [hrow 0 (by norm_num), hrow 1 (by norm_num), hrow 2 (by norm_num),
        hrow 3 (by norm_num), hrow 4 (by norm_num), hrow 5 (by norm_num),
        hrow 6 (by norm_num), hrow 7 (by norm_num), hrow 8 (by norm_num),
        hrow 9 (by norm_num)]
    have hin : i < (r0 :: rtail).length := by simpa using h1
    cases i with
    | zero =>
      simp only [List.getD_cons_zero, List.getElem_cons_zero]
      exact codec.sample_mk_field_view r0.s
    | succ j =>
      have hj : j < rtail.length := by
        simp only [List.length_cons] at hin
        omega
      simp only [List.getD_cons_succ, List.getElem_cons_succ]
      rw [codec.getD_map_field rtail 0 j hj, codec.getD_map_field rtail 1 j hj,
          codec.getD_map_field rtail 2 j hj, codec.getD_map_field rtail 3 j hj,
          codec.getD_map_field rtail 4 j hj, codec.getD_map_field rtail 5 j hj,
          codec.getD_map_field rtail 6 j hj, codec.getD_map_field rtail 7 j hj,
          codec.getD_map_field rtail 8 j hj, codec.getD_map_field rtail 9 j hj]
      have hg : rtail.get ⟨j, hj⟩ = rtail[j] := rfl
      rw [hg]
      exact codec.sample_mk_field_view (rtail[j]).s

/-- Witness for C2 (amended): a concrete two-record batch round-trips. -/
theorem C2_codec_roundtrip_amended_witness :
    codec.decode_delta_rle_v1
        (codec.encode_delta_rle_v1
          [⟨0, ⟨2301, 152, 5000, 3200, 3210, 60, 58, 410, 10, 7500⟩⟩,
           ⟨5, ⟨2301, 160, 5000, 3200, 3210, 60, 58, 410, 10, 7500⟩⟩]) []
      = (true, [⟨2301, 152, 5000, 3200, 3210, 60, 58, 410, 10, 7500⟩,
                ⟨2301, 160, 5000, 3200, 3210, 60, 58, 410, 10, 7500⟩]) :=
  C2_codec_roundtrip_amended
    [⟨0, ⟨2301, 152, 5000, 3200, 3210, 60, 58, 410, 10, 7500⟩⟩,
     ⟨5, ⟨2301, 160, 5000, 3200, 3210, 60, 58, 410, 10, 7500⟩⟩]
    [] (by decide) (by decide) (by decide)

/-- C9: the decoder is atomic on error: whenever it returns `false` the
caller's `out_samples` vector is completely unmodified, and when it returns
`true` the written result is a function of the blob alone (independent of
the vector's previous contents). -/
theorem C9_decode_error_atomicity (blob : List Nat)
    (out0 out1 : List acquisition.Sample) :
    ((codec.decode_delta_rle_v1 blob out0).1 = false →
      (codec.decode_delta_rle_v1 blob out0).2 = out0) ∧
    ((codec.decode_delta_rle_v1 blob out0).1 = true →
      (codec.decode_delta_rle_v1 blob out0).2 =
        (codec.decode_delta_rle_v1 blob out1).2) := by
  rcases codec.decode_false_or_true blob with hall | ⟨samples, hall⟩
  · refine ⟨fun _ => by rw [hall out0], fun htrue => ?_⟩
    rw [hall out0] at htrue
    simp at htrue
  · refine ⟨fun hfalse => ?_, fun _ => by rw [hall out0, hall out1]⟩
    rw [hall out0] at hfalse
    simp at hfalse

/-- Witness for C9: a too-short blob fails and leaves the vector intact;
a valid one-record blob succeeds with a result independent of the previous
vector contents. -/
theorem C9_decode_error_atomicity_witness :
    (codec.decode_delta_rle_v1 [] [⟨1, 2, 3, 4, 5, 6, 7, 8, 9, 10⟩]).2
      = [⟨1, 2, 3, 4, 5, 6, 7, 8, 9, 10⟩] ∧
    (codec.decode_delta_rle_v1
        (codec.encode_delta_rle_v1 [⟨0, ⟨1, 2, 3, 4, 5, 6, 7, 8, 9, 10⟩⟩])
        [⟨9, 9, 9, 9, 9, 9, 9, 9, 9, 9⟩]).2
      = (codec.decode_delta_rle_v1
          (codec.encode_delta_rle_v1 [⟨0, ⟨1, 2, 3, 4, 5, 6, 7, 8, 9, 10⟩⟩])
          []).2 :=
  ⟨(C9_decode_error_atomicity [] [⟨1, 2, 3, 4, 5, 6, 7, 8, 9, 10⟩] []).1
      (by decide),
   (C9_decode_error_atomicity
      (codec.encode_delta_rle_v1 [⟨0, ⟨1, 2, 3, 4, 5, 6, 7, 8, 9, 10⟩⟩])
      [⟨9, 9, 9, 9, 9, 9, 9, 9, 9, 9⟩] []).2 (by decide)⟩

/-- C3: for a canonical envelope `{"nonce":N,"payload":"P","mac":"M"}` (quote-free
nonempty `P` and `M`, `P` not literally `mac`, and `P` base64-decodable whenever the
caller asks for base64 treatment), `unwrap_and_verify_envelope` succeeds exactly when
the recomputed HMAC over `"{nonce}.{payload}"` matches `M` case-insensitively and `N`
is strictly greater than `last_seen_nonce`; on success `last_seen_nonce` becomes `N`,
and unwrapping the same envelope again fails, leaving `last_seen_nonce` at `N`. -/
theorem C3_envelope_unwrap (hmac : List Char → List Char → List Char)
    (psk P M : List Char) (N last : Nat) (flag : Bool)
    (hP : ∀ c ∈ P, c ≠ '\x22') (hPne : P ≠ []) (hPm : P ≠ ['m','a','c'])
    (hM : ∀ c ∈ M, c ≠ '\x22') (hMne : M ≠ [])
    (hb64 : flag = true → security.b64_decode P ≠ []) :
    ((security.unwrap_and_verify_envelope hmac
        (security.mkEnvelope (security.natDigits N) P M) psk last flag).1 ≠ none ↔
      (security.eq_ci_hex (hmac psk (security.natDigits N ++ '.' :: P)) M = true ∧
        last < N)) ∧
    ((security.unwrap_and_verify_envelope hmac
        (security.mkEnvelope (security.natDigits N) P M) psk last flag).1 ≠ none →
      (security.unwrap_and_verify_envelope hmac
        (security.mkEnvelope (security.natDigits N) P M) psk last flag).2 = N ∧
      (security.unwrap_and_verify_envelope hmac
        (security.mkEnvelope (security.natDigits N) P M) psk N flag).1 = none ∧
      (security.unwrap_and_verify_envelope hmac
        (security.mkEnvelope (security.natDigits N) P M) psk N flag).2 = N) ∧
    ((security.unwrap_and_verify_envelope hmac
        (security.mkEnvelope (security.natDigits N) P M) psk last flag).1 = none →
      (security.unwrap_and_verify_envelope hmac
        (security.mkEnvelope (security.natDigits N) P M) psk last flag).2 = last) := by
  obtain ⟨hDne, hD, hparse⟩ := security.natDigits_spec N
  have hPb : ∀ c ∈ P, (('\x22' : Char) == c) = false := fun c hc =>
    beq_eq_false_iff_ne.mpr (fun h => hP c hc h.symm)
  have hMb : ∀ c ∈ M, (('\x22' : Char) == c) = false := fun c hc =>
    beq_eq_false_iff_ne.mpr (fun h => hM c hc h.symm)
  have hu : ∀ l : Nat, security.unwrap_and_verify_envelope hmac
      (security.mkEnvelope (security.natDigits N) P M) psk l flag =
      if security.eq_ci_hex (hmac psk (security.natDigits N ++ '.' :: P)) M = false then
        (none, l)
      else if N ≤ l then (none, l)
      else if flag then
        (if security.b64_decode P = [] then (none, N)
         else (some (security.b64_decode P), N))
      else (some P, N) := by
    intro l
    rw [security.unwrap_mkEnvelope hmac psk (security.natDigits N) P M l flag
        hD hDne hPb hPne hPm hMb hMne, hparse]
  by_cases hE : security.eq_ci_hex (hmac psk (security.natDigits N ++ '.' :: P)) M = true
  · by_cases hlt : last < N
    · -- success case
      have h1 : security.unwrap_and_verify_envelope hmac
          (security.mkEnvelope (security.natDigits N) P M) psk last flag =
          (if flag then
            (if security.b64_decode P = [] then (none, N)
             else (some (security.b64_decode P), N))
          else (some P, N)) := by
        rw [hu last, if_neg (by simp [hE]), if_neg (by omega)]
      have h2 : security.unwrap_and_verify_envelope hmac
          (security.mkEnvelope (security.natDigits N) P M) psk N flag =
          (none, N) := by
        rw [hu N, if_neg (by simp [hE]), if_pos (le_refl N)]
      cases flag with
      | false =>
        simp only [h1, h2, if_neg Bool.false_ne_true]
        simp [hE, hlt]
      | true =>
        have hbne := hb64 rfl
        simp only [h1, h2, if_pos rfl, if_neg hbne]
        simp [hE, hlt]
    · -- stale nonce
      have h1 : security.unwrap_and_verify_envelope hmac
          (security.mkEnvelope (security.natDigits N) P M) psk last flag =
          (none, last) := by
        rw [hu last, if_neg (by simp [hE]), if_pos (by omega)]
      simp only [h1]
      simp [hE, hlt]
  · -- mac mismatch
    have hEf : security.eq_ci_hex (hmac psk (security.natDigits N ++ '.' :: P)) M =
        false := by
      cases hx : security.eq_ci_hex (hmac psk (security.natDigits N ++ '.' :: P)) M with
      | false => rfl
      | true => exact absurd hx hE
    have h1 : security.unwrap_and_verify_envelope hmac
        (security.mkEnvelope (security.natDigits N) P M) psk last flag =
        (none, last) := by
      rw [hu last, if_pos hEf]
    simp only [h1]
    simp [hE]

theorem C3_envelope_unwrap_witness :
    (security.unwrap_and_verify_envelope (fun _ _ => ['a','b'])
      (security.mkEnvelope (security.natDigits 5) ['A','A','A','A'] ['A','B'])
      [] 4 false).1 ≠ none ∧
    (security.unwrap_and_verify_envelope (fun _ _ => ['a','b'])
      (security.mkEnvelope (security.natDigits 5) ['A','A','A','A'] ['A','B'])
      [] 4 false).2 = 5 ∧
    (security.unwrap_and_verify_envelope (fun _ _ => ['a','b'])
      (security.mkEnvelope (security.natDigits 5) ['A','A','A','A'] ['A','B'])
      [] 5 false).1 = none ∧
    (security.unwrap_and_verify_envelope (fun _ _ => ['a','b'])
      (security.mkEnvelope (security.natDigits 5) ['A','A','A','A'] ['A','B'])
      [] 5 false).2 = 5 := by
  have h := C3_envelope_unwrap (fun _ _ => ['a','b']) [] ['A','A','A','A'] ['A','B']
    5 4 false (by decide) (by decide) (by decide) (by decide) (by decide)
    (by intro h; exact absurd h (by decide))
  obtain ⟨h1, h2, _⟩ := h
  have hsucc : (security.unwrap_and_verify_envelope (fun _ _ => ['a','b'])
      (security.mkEnvelope (security.natDigits 5) ['A','A','A','A'] ['A','B'])
      [] 4 false).1 ≠ none := h1.mpr ⟨by decide, by decide⟩
  obtain ⟨hn, hr1, hr2⟩ := h2 hsucc
  exact ⟨hsucc, hn, hr1, hr2⟩

/-- C10: an envelope wrapped from the empty body never unwraps: for every HMAC
function, psk, nonce, stored nonce and base64 flag, `unwrap_and_verify_envelope`
on `wrap_json_with_hmac ""` returns no payload and leaves `last_seen_nonce`
unchanged, because the empty payload string is rejected before MAC verification. -/
theorem C10_empty_envelope_never_unwraps (hmac : List Char → List Char → List Char)
    (psk : List Char) (nonce last : Nat) (flag : Bool) :
    security.unwrap_and_verify_envelope hmac
      (security.wrap_json_with_hmac hmac [] psk nonce) psk last flag = (none, last) := by
  obtain ⟨hDne, hD, _⟩ := security.natDigits_spec nonce
  have hwrap : security.wrap_json_with_hmac hmac [] psk nonce =
      security.mkEnvelope (security.natDigits nonce) []
        (hmac psk (security.natDigits nonce ++ '.' :: [])) := rfl
  rw [hwrap]
  simp only [security.unwrap_and_verify_envelope]
  rw [security.json_nonce_of_env _ _ _ hD hDne]
  dsimp only
  rw [security.json_payload_of_env _ _ _ hD (by simp)]
  rw [if_pos (Or.inl rfl)]

/-- C5: calling `fota::start` again with a manifest identical in version,
hash_hex and size while a session is already active is a no-op: it returns
`true` and leaves the session state (in particular `bytes_written` and
`next_chunk`) and the persisted NVS values entirely unchanged. -/
theorem C5_fota_start_duplicate (env : fota.FotaEnv) (st : fota.FotaState)
    (nv : fota.Nvs) (m : fota.Manifest)
    (hact : st.session_active = true)
    (hv : st.mf.version = m.version) (hh : st.mf.hash_hex = m.hash_hex)
    (hs : st.mf.size = m.size) :
    fota.start env st nv m = (true, st, nv) := by
  simp only [fota.start]
  rw [if_pos (by simp [hact, hv, hh, hs])]

theorem C5_fota_start_duplicate_witness :
    fota.start fota.wEnv fota.wSt fota.wNv fota.wMf = (true, fota.wSt, fota.wNv) :=
  C5_fota_start_duplicate fota.wEnv fota.wSt fota.wNv fota.wMf
    (by decide) (by decide) (by decide) (by decide)

/-- C4: for an active FOTA session (session flag set, streaming hash
initialised, not finalized), feeding `ingest_chunk` any chunk number different
from `next_chunk` returns `false` with `last_error = "out-of-order"` and leaves
the state otherwise untouched (in particular `bytes_written` and `next_chunk`)
as well as the persisted NVS values; a chunk numbered exactly `next_chunk`
whose base64 decodes nonempty within bounds is accepted: the call returns
`true`, `bytes_written` grows by the decoded length and `next_chunk` becomes
`number + 1`, both in the session state and in NVS. -/
theorem C4_fota_chunk_order (env : fota.FotaEnv) (st : fota.FotaState)
    (nv : fota.Nvs) (number : Nat) (b64 : List Char)
    (hact : st.session_active = true) (hsha : st.sha_init = true)
    (hfin : st.finalized = false) :
    (number ≠ st.next_chunk →
      fota.ingest_chunk env st nv number b64 =
        (false, { st with last_error := "out-of-order".data }, nv)) ∧
    (number = st.next_chunk → env.b64dec b64 ≠ [] →
      st.bytes_written + (env.b64dec b64).length ≤ st.mf.size →
      env.otaWriteOk = true → number + 1 < 4294967296 →
      (fota.ingest_chunk env st nv number b64).1 = true ∧
      (fota.ingest_chunk env st nv number b64).2.1.bytes_written =
        st.bytes_written + (env.b64dec b64).length ∧
      (fota.ingest_chunk env st nv number b64).2.1.next_chunk = number + 1 ∧
      (fota.ingest_chunk env st nv number b64).2.2.wr =
        st.bytes_written + (env.b64dec b64).length ∧
      (fota.ingest_chunk env st nv number b64).2.2.next = number + 1) := by
  constructor
  · intro hne
    simp only [fota.ingest_chunk]
    rw [if_neg (by simp [hact, hsha, hfin]), if_pos hne]
  · intro heq hbin hle hwr hlt
    simp only [fota.ingest_chunk]
    rw [if_neg (by simp [hact, hsha, hfin]), if_neg (by simp [heq]),
        if_neg hbin, if_neg (by omega), if_neg (by simp [hwr])]
    split <;> simp [Nat.mod_eq_of_lt hlt]

theorem C4_fota_chunk_order_witness :
    (fota.ingest_chunk fota.wEnv fota.wSt fota.wNv 5 ['x'] =
      (false, { fota.wSt with last_error := "out-of-order".data }, fota.wNv)) ∧
    ((fota.ingest_chunk fota.wEnv fota.wSt fota.wNv 0 ['x']).1 = true ∧
      (fota.ingest_chunk fota.wEnv fota.wSt fota.wNv 0 ['x']).2.1.bytes_written =
        fota.wSt.bytes_written + (fota.wEnv.b64dec ['x']).length ∧
      (fota.ingest_chunk fota.wEnv fota.wSt fota.wNv 0 ['x']).2.1.next_chunk = 0 + 1 ∧
      (fota.ingest_chunk fota.wEnv fota.wSt fota.wNv 0 ['x']).2.2.wr =
        fota.wSt.bytes_written + (fota.wEnv.b64dec ['x']).length ∧
      (fota.ingest_chunk fota.wEnv fota.wSt fota.wNv 0 ['x']).2.2.next = 0 + 1) :=
  ⟨(C4_fota_chunk_order fota.wEnv fota.wSt fota.wNv 5 ['x']
      (by decide) (by decide) (by decide)).1 (by decide),
   (C4_fota_chunk_order fota.wEnv fota.wSt fota.wNv 0 ['x']
      (by decide) (by decide) (by decide)).2 (by decide) (by decide)
      (by decide) (by decide) (by decide)⟩

/-- C6: when `finalize_and_apply` runs on an active, non-finalized session with
exactly `mf.size` bytes written, a well-formed manifest hash, and a computed
SHA-256 digest different from it, it yields `ok_verify = false` and
`ok_apply = false` (returning `false`), does not switch the boot partition,
clears the persisted progress counters `bytes_written` and `next_chunk`, and
marks the session finalized. -/
theorem C6_fota_finalize_verify_fail (env : fota.FotaEnv) (st : fota.FotaState)
    (nv : fota.Nvs) (want : List Nat)
    (hact : st.session_active = true) (hfin : st.finalized = false)
    (hsha : st.sha_init = true) (hlen : st.bytes_written = st.mf.size)
    (hhex : fota.hex2bin st.mf.hash_hex = some want)
    (hbad : env.sha256 st.shaAcc ≠ want)
    (hend : env.otaEndOk = true) :
    (fota.finalize_and_apply env st nv).okVerify = false ∧
    (fota.finalize_and_apply env st nv).okApply = false ∧
    (fota.finalize_and_apply env st nv).ret = false ∧
    (fota.finalize_and_apply env st nv).bootSwitched = false ∧
    (fota.finalize_and_apply env st nv).nv.wr = 0 ∧
    (fota.finalize_and_apply env st nv).nv.next = 0 ∧
    (fota.finalize_and_apply env st nv).st.finalized = true := by
  have h : fota.finalize_and_apply env st nv =
      ⟨false, false, false, false,
        { { st with sha_init := false } with finalized := true },
        { nv with
          wr := 0
          next := 0 }⟩ := by
    simp only [fota.finalize_and_apply]
    rw [if_neg (by simp [hact, hfin]), if_neg (by simp [hsha]),
        if_neg (by simp [hlen]), hhex]
    dsimp only
    rw [if_neg (by simp [hend]), if_pos (by simp [hbad])]
  rw [h]
  exact ⟨rfl, rfl, rfl, rfl, rfl, rfl, rfl⟩

theorem C6_fota_finalize_verify_fail_witness :
    (fota.finalize_and_apply fota.wEnv
      { fota.wSt with
        bytes_written := 4
        shaAcc := [1, 2, 3, 4] } fota.wNv).okVerify = false ∧
    (fota.finalize_and_apply fota.wEnv
      { fota.wSt with
        bytes_written := 4
        shaAcc := [1, 2, 3, 4] } fota.wNv).okApply = false ∧
    (fota.finalize_and_apply fota.wEnv
      { fota.wSt with
        bytes_written := 4
        shaAcc := [1, 2, 3, 4] } fota.wNv).ret = false ∧
    (fota.finalize_and_apply fota.wEnv
      { fota.wSt with
        bytes_written := 4
        shaAcc := [1, 2, 3, 4] } fota.wNv).bootSwitched = false ∧
    (fota.finalize_and_apply fota.wEnv
      { fota.wSt with
        bytes_written := 4
        shaAcc := [1, 2, 3, 4] } fota.wNv).nv.wr = 0 ∧
    (fota.finalize_and_apply fota.wEnv
      { fota.wSt with
        bytes_written := 4
        shaAcc := [1, 2, 3, 4] } fota.wNv).nv.next = 0 ∧
    (fota.finalize_and_apply fota.wEnv
      { fota.wSt with
        bytes_written := 4
        shaAcc := [1, 2, 3, 4] } fota.wNv).st.finalized = true :=
  C6_fota_finalize_verify_fail fota.wEnv
    { fota.wSt with
      bytes_written := 4
      shaAcc := [1, 2, 3, 4] } fota.wNv (List.replicate 32 170)
    (by decide) (by decide) (by decide) (by decide) (by decide) (by decide)
    (by decide)
